import Mathlib

/-!
Verification of the txtpp preprocessor core against its specification.

The Rust sources are shallowly embedded: Rust `String`/`&str` values are
modelled as `List Char` (byte indices coincide with character indices at
every offset the code slices at, since slicing always happens on match
boundaries), `HashMap`/`HashSet` are modelled as association lists / lists
with first-occurrence lookup semantics, and fallible operations return
`Except`/`Option`.
-/

namespace Txtpp

/-- Rust strings are modelled as lists of characters. -/
abbrev Str := List Char

/-- Coerce a Lean string literal to the model type. -/
def str (s : String) : Str := s.toList

/-! ## Association lists (model of `HashMap`) -/

/-- Lookup by key; models `HashMap::get`. Only the first occurrence of a
key is visible, matching map semantics. -/
def lookupA {V β : Type} [DecidableEq V] : List (V × β) → V → Option β
  | [], _ => none
  | (k, v) :: rest, x => if k = x then some v else lookupA rest x

/-- Update the entry for a key in place, or append a new entry; models
`HashMap::insert` / the write-back of an `entry(..)` handle. -/
def setA {V β : Type} [DecidableEq V] : List (V × β) → V → β → List (V × β)
  | [], x, v => [(x, v)]
  | (k, w) :: rest, x, v => if k = x then (x, v) :: rest else (k, w) :: setA rest x v

/-- Remove the entry for a key; models `HashMap::remove`. -/
def removeA {V β : Type} [DecidableEq V] (l : List (V × β)) (x : V) : List (V × β) :=
  l.filter (fun p => p.1 ≠ x)

/-! ## Dependency graph (src/core/util/dependency.rs)

`AbsPath` keys compare by their absolute path only, so the vertex type is
an arbitrary type `V` with decidable equality. -/

/-- Embedding of `DepManager`: `out_edge_counts` counts how many
dependencies one vertex has, `in_edges` maps a dependency to the set of
its dependers, `finished` is the set of finished vertices. -/
structure DepManager (V : Type) where
  out_edge_counts : List (V × Nat)
  in_edges : List (V × List V)
  finished : List V
deriving DecidableEq

/-- `DepManager::new` -/
def DepManager.empty (V : Type) : DepManager V :=
  { out_edge_counts := [], in_edges := [], finished := [] }

/-- One iteration of the `for dependency in dependencies` loop in
`DepManager::add_dependency`. The accumulator carries the `in_edges` map,
the running value behind the `dependency_count` mutable borrow, and the
`added` flag. -/
def addDepStep {V : Type} [DecidableEq V] (fin : List V) (depender : V)
    (acc : List (V × List V) × Nat × Bool) (dependency : V) :
    List (V × List V) × Nat × Bool :=
  if dependency ∈ fin then acc
  else
    let dependers := (lookupA acc.1 dependency).getD []
    if depender ∈ dependers then (acc.1, acc.2.1, true)
    else (setA acc.1 dependency (dependers ++ [depender]), acc.2.1 + 1, true)

/-- `DepManager::add_dependency`. Returns the `bool` result together with
the updated manager. The `entry(..).or_insert(0)` is reflected by writing
the final count back for `depender` even when no live edge exists. -/
def DepManager.add_dependency {V : Type} [DecidableEq V] (m : DepManager V) (depender : V)
    (dependencies : List V) : Bool × DepManager V :=
  if dependencies = [] then (false, m)
  else
    let cnt0 := (lookupA m.out_edge_counts depender).getD 0
    let acc := dependencies.foldl (addDepStep m.finished depender) (m.in_edges, cnt0, false)
    (acc.2.2,
      { out_edge_counts := setA m.out_edge_counts depender acc.2.1,
        in_edges := acc.1,
        finished := m.finished })

/-- One iteration of the `for depender in in_edges` loop in
`DepManager::notify_finish`. The accumulator carries the output set and
the `out_edge_counts` map. The Rust code unwraps the count lookup; the
invariant proved for claim C4 shows the entry always exists on reachable
states, and the model skips the depender in the impossible case. -/
def notifyStep {V : Type} [DecidableEq V] (acc : List V × List (V × Nat)) (depender : V) :
    List V × List (V × Nat) :=
  match lookupA acc.2 depender with
  | none => acc
  | some count =>
    if count ≤ 1 then (acc.1 ++ [depender], removeA acc.2 depender)
    else (acc.1, setA acc.2 depender (count - 1))

/-- Insertion into the `finished` set; models `HashSet::insert`. -/
def finIns {V : Type} [DecidableEq V] (fin : List V) (f : V) : List V :=
  if f ∈ fin then fin else fin ++ [f]

/-- `DepManager::notify_finish`. Returns the set of freed vertices
together with the updated manager. -/
def DepManager.notify_finish {V : Type} [DecidableEq V] (m : DepManager V) (fin : V) :
    List V × DepManager V :=
  let finished' := finIns m.finished fin
  match lookupA m.in_edges fin with
  | none => ([], { m with finished := finished' })
  | some dependers =>
    let acc := dependers.foldl notifyStep ([], m.out_edge_counts)
    (acc.1,
      { out_edge_counts := acc.2,
        in_edges := removeA m.in_edges fin,
        finished := finished' })

/-- An entry of `in_edges` holds a live edge from `B`: its dependers
contain `B` and its key (the dependency) is not finished. -/
def liveP {V : Type} [DecidableEq V] (fin : List V) (B : V) (p : V × List V) : Bool :=
  decide (B ∈ p.2 ∧ p.1 ∉ fin)

/-- The number of live out-edges of `A`: entries of `in_edges` whose
dependers contain `A` and whose key is not finished. -/
def edgeCount {V : Type} [DecidableEq V] (m : DepManager V) (A : V) : Nat :=
  m.in_edges.countP (liveP m.finished A)

/-- States of the dependency graph reachable from the empty graph by
`add_dependency` and `notify_finish`. -/
inductive Reaches {V : Type} [DecidableEq V] : DepManager V → Prop
  | empty : Reaches (DepManager.empty V)
  | add (m : DepManager V) (A : V) (deps : List V) :
      Reaches m → Reaches (m.add_dependency A deps).2
  | finish (m : DepManager V) (f : V) :
      Reaches m → Reaches (m.notify_finish f).2

/-- The internal invariant of the dependency graph: map keys are
duplicate-free, dependers lists are duplicate-free, `in_edges` keys are
never finished, every recorded depender has an out-count entry, and every
out-count entry equals the number of live out-edges. -/
def Inv {V : Type} [DecidableEq V] (m : DepManager V) : Prop :=
  (m.out_edge_counts.map Prod.fst).Nodup ∧
  (m.in_edges.map Prod.fst).Nodup ∧
  (∀ p ∈ m.in_edges, (p.2 : List V).Nodup) ∧
  (∀ p ∈ m.in_edges, p.1 ∉ m.finished) ∧
  (∀ p ∈ m.in_edges, ∀ a ∈ p.2, (lookupA m.out_edge_counts a).isSome) ∧
  (∀ A c, lookupA m.out_edge_counts A = some c → c = edgeCount m A)

/-! ## Error kinds (src/src/error.rs) -/

/-- `PpErrorKind` from src/src/error.rs. -/
inductive PpErrorKind : Type
  | OpenFile
  | ReadFile
  | WriteFile
  | DeleteFile
  | VerifyOutput
  | Directive
  | Other
deriving DecidableEq, Repr

/-- `PpError` from src/src/error.rs: a kind, the input file, and the
current line number. -/
structure PpError : Type where
  kind : PpErrorKind
  file : Str
  line : Nat
deriving DecidableEq, Repr

/-! ## Verify-mode output context (src/src/fs/io_context.rs)

The Verify variant of `CtxOut` holds a reader over the existing output
file and the remaining unverified length `rem`. The file is modelled as
its byte list together with the reader position. -/

structure VerifyOut : Type where
  content : List Nat
  pos : Nat
  rem : Nat
deriving DecidableEq, Repr

/-- `CtxOut::new` in `Mode::Verify` (src/src/fs/io_context.rs:323-363):
requires the output file to exist, opens it and records its byte length
as `rem`. IO failures of `metadata`/`open` on an existing file are not
modelled. -/
def ctxOutNewVerify (outputExists : Bool) (content : List Nat) :
    Except PpErrorKind VerifyOut :=
  if !outputExists then .error .VerifyOutput
  else .ok { content := content, pos := 0, rem := content.length }

/-- `IOCtx::write_output` in the Verify arm
(src/src/fs/io_context.rs:107-126): error when fewer than `|out|` bytes
remain unverified, otherwise `read_exact` that many bytes (a `ReadFile`
error if the stream is exhausted), compare byte-for-byte, and decrement
`rem`. -/
def verifyWriteOutput (v : VerifyOut) (out : List Nat) : Except PpErrorKind VerifyOut :=
  let len := out.length
  if v.rem < len then .error .VerifyOutput
  else if v.content.length < v.pos + len then .error .ReadFile
  else if (v.content.drop v.pos).take len ≠ out then .error .VerifyOutput
  else .ok { content := v.content, pos := v.pos + len, rem := v.rem - len }

/-- `IOCtx::done` in the Verify arm (src/src/fs/io_context.rs:198-203):
fails unless `rem` is zero. -/
def verifyDone (v : VerifyOut) : Except PpErrorKind Unit :=
  if v.rem ≠ 0 then .error .VerifyOutput else .ok ()

/-- The split of a file name at its last dot: `some (before, after)` when
a dot exists, `none` otherwise. -/
def splitAtLastDot (f : Str) : Option (Str × Str) :=
  match f.reverse.dropWhile (fun c => c ≠ '.') with
  | [] => none
  | _ :: beforeRev =>
    some (beforeRev.reverse, (f.reverse.takeWhile (fun c => c ≠ '.')).reverse)

/-- Rust `rsplit_file_at_dot`: `(before, after)` of the last dot, with the
special cases for `".."` and a file name whose only dot is leading. -/
def rsplitFileAtDot (f : Str) : Option Str × Option Str :=
  if f = str ".." then (some f, none)
  else match splitAtLastDot f with
    | none => (none, some f)
    | some (before, after) =>
      if before = [] then (some f, none) else (some before, some after)

/-- Rust `Path::extension` on a file name: `before.and(after)`. -/
def extension (f : Str) : Option Str :=
  match rsplitFileAtDot f with
  | (some _, some after) => some after
  | _ => none

/-- Rust `Path::file_stem` on a file name: `before.or(after)`. -/
def fileStem (f : Str) : Option Str :=
  match rsplitFileAtDot f with
  | (some before, _) => some before
  | (none, after) => after

/-- Rust `PathBuf::set_extension` on a file name: the stem, followed by a
dot and the new extension when it is nonempty. -/
def setExtension (f : Str) (e : Str) : Str :=
  match fileStem f with
  | none => f
  | some stem => if e = [] then stem else stem ++ '.' :: e

/-- `TXTPP_EXT` (src/src/fs/path/abs_path.rs:10). -/
def txtppExt : Str := str "txtpp"

/-- `TxtppPath::is_txtpp_file` (src/src/fs/path/mod.rs:46-62): the last
extension is the reserved token, or — after stripping it — the
second-to-last one is. -/
def is_txtpp_file (f : Str) : Bool :=
  match extension f with
  | some ext =>
    if ext = txtppExt then true
    else
      match extension (setExtension f []) with
      | some ext2 => ext2 = txtppExt
      | none => false
  | none => false

/-- `TxtppPath::remove_txtpp` (src/src/fs/path/mod.rs:105-123). The
`PathError` payload is not modelled. -/
def remove_txtpp (f : Str) : Except Unit Str :=
  if ¬is_txtpp_file f then .error ()
  else
    let p := setExtension f []
    match extension p with
    | some ext =>
      if ext = txtppExt then
        match extension f with
        | none => .error ()
        | some selfExt => .ok (setExtension (setExtension p []) selfExt)
      else .ok p
    | none => .ok p

/-! ## Tag state (src/src/core/util/tag_state.rs) -/

/-- `TagState`: at most one listening tag, and a map from stored tag
names to captured content (modelled as an association list in a fixed
iteration order). -/
structure TagState : Type where
  listening : Option Str
  stored : List (Str × Str)
deriving DecidableEq, Repr

/-- `TagState::new` -/
def TagState.new : TagState := { listening := none, stored := [] }

/-- The three error reports `TagState::create` can produce. -/
inductive TagError : Type
  | stillListening
  | sameName
  | ambiguous
deriving DecidableEq, Repr

/-- `TagState::create` (src/src/core/util/tag_state.rs:31-52), embedded as
state passing: the returned state is the state at the corresponding Rust
`return`. `k.starts_with(tag)` means `tag` is a prefix of `k`. -/
def TagState.create (st : TagState) (tag : Str) : TagState × Except TagError Unit :=
  match st.listening with
  | some _ => (st, .error .stillListening)
  | none =>
    match st.stored.find? (fun p => tag.isPrefixOf p.1 || p.1.isPrefixOf tag) with
    | some p =>
      if p.1 = tag then (st, .error .sameName) else (st, .error .ambiguous)
    | none => ({ st with listening := some tag }, .ok ())

/-- `TagState::try_store` (src/src/core/util/tag_state.rs:54-63): `true`
is Rust `Ok(())`, `false` is `Err(())`. -/
def TagState.try_store (st : TagState) (content : Str) : TagState × Bool :=
  match st.listening with
  | some tag => ({ listening := none, stored := setA st.stored tag content }, true)
  | none => (st, false)

/-- Rust `str::find` with a string pattern: index of the first occurrence
(char indices; byte and char offsets agree at every boundary the code
slices at). -/
def findSubstr : Str → Str → Option Nat
  | [], p => if p.isPrefixOf [] then some 0 else none
  | c :: t, p =>
    if p.isPrefixOf (c :: t) then some 0 else (findSubstr t p).map (· + 1)

/-- `str::split_terminator('\n')`: pieces between newlines, the final
empty piece dropped. -/
def splitTermNl : Str → List Str
  | [] => []
  | c :: t =>
    if c = '\n' then [] :: splitTermNl t
    else
      match splitTermNl t with
      | [] => [[c]]
      | l :: ls => (c :: l) :: ls

/-- Strip one trailing carriage return from a line. -/
def stripCr (l : Str) : Str := if l.getLast? = some '\r' then l.dropLast else l

/-- `str::lines` as pinned by this crate's own unit tests
(src/src/core/string.rs): split on newline terminators, then strip one
trailing carriage return per line. -/
def rustLines (s : Str) : List Str := (splitTermNl s).map stripCr

/-- `ReplaceLineEnding::replace_line_ending` (src/src/core/string.rs):
re-join the lines with the given line ending, appending a final line
ending iff forced or the input ended with a newline. -/
def replace_line_ending (s le : Str) (force_trailing_newline : Bool) : Str :=
  (List.intercalate le (rustLines s))
    ++ (if force_trailing_newline || s.getLast? = some '\n' then le else [])

/-- Stable insertion by start index; together with `sortByIdx` this is
Rust's stable `sort_by(|a, b| a.0.cmp(&b.0))`. -/
def insertIdx (e : Nat × Str × Str) : List (Nat × Str × Str) → List (Nat × Str × Str)
  | [] => [e]
  | x :: xs => if x.1 < e.1 then x :: insertIdx e xs else e :: x :: xs

def sortByIdx : List (Nat × Str × Str) → List (Nat × Str × Str)
  | [] => []
  | x :: xs => insertIdx x (sortByIdx xs)

/-- One iteration of the `for (i, key, value) in &to_inject` loop of
`TagState::inject_tags`: the accumulator carries `injected_output`,
`last_end` and `to_remove`. -/
def injectStep (output le : Str) (acc : Str × Nat × List Str) (e : Nat × Str × Str) :
    Str × Nat × List Str :=
  if e.1 < acc.2.1 then acc
  else (acc.1 ++ ((output.take e.1).drop acc.2.1) ++ replace_line_ending e.2.2 le false,
        e.1 + e.2.1.length, acc.2.2 ++ [e.2.1])

/-- `TagState::inject_tags` (src/src/core/util/tag_state.rs:65-92). The
`HashMap` iteration order behind `to_inject` is modelled as the list
order of `stored`. -/
def TagState.inject_tags (st : TagState) (output le : Str) : Str × TagState :=
  let to_inject := st.stored.filterMap
    (fun kv => (findSubstr output kv.1).map (fun i => (i, kv.1, kv.2)))
  let sorted := sortByIdx to_inject
  let r := sorted.foldl (injectStep output le) ([], 0, [])
  let stored' := r.2.2.foldl (fun m k => removeA m k) st.stored
  (r.1 ++ output.drop r.2.1 ++ le, { st with stored := stored' })

/-- From the spec's words: from index-sorted candidate occurrences,
select a non-overlapping set by earliest start index — keep an occurrence
iff it starts at or after the end of the previously selected one. -/
def selectGreedy (e : Nat) : List (Nat × Str × Str) → List (Nat × Str × Str)
  | [] => []
  | x :: xs =>
    if x.1 < e then selectGreedy e xs
    else x :: selectGreedy (x.1 + x.2.1.length) xs

/-- From the spec's words: replace each selected occurrence with its
captured content, the content's line endings rewritten to `le` with no
trailing newline added, keeping the text between occurrences. -/
def splice (output le : Str) (e : Nat) : List (Nat × Str × Str) → Str
  | [] => output.drop e
  | x :: xs => ((output.take x.1).drop e) ++ replace_line_ending x.2.2 le false
      ++ splice output le (x.1 + x.2.1.length) xs

/-- The spliced text without the tail of `output`. -/
def spliceCore (output le : Str) (e : Nat) : List (Nat × Str × Str) → Str
  | [] => []
  | x :: xs => ((output.take x.1).drop e) ++ replace_line_ending x.2.2 le false
      ++ spliceCore output le (x.1 + x.2.1.length) xs

/-- The end position after splicing a selected list. -/
def spliceEnd (e : Nat) : List (Nat × Str × Str) → Nat
  | [] => e
  | x :: xs => spliceEnd (x.1 + x.2.1.length) xs

/-- The final `last_end` of the injection loop. -/
def selEnd (e : Nat) : List (Nat × Str × Str) → Nat
  | [] => e
  | x :: xs => if x.1 < e then selEnd e xs else selEnd (x.1 + x.2.1.length) xs

/-- The candidate occurrences built by `inject_tags`: for each stored tag
occurring in `output`, the index of its first occurrence. -/
def injectCandidates (stored : List (Str × Str)) (output : Str) :
    List (Nat × Str × Str) :=
  stored.filterMap (fun kv => (findSubstr output kv.1).map (fun i => (i, kv.1, kv.2)))

/-- The non-overlapping selection by earliest start index. -/
def injectSelection (stored : List (Str × Str)) (output : Str) :
    List (Nat × Str × Str) :=
  selectGreedy 0 (sortByIdx (injectCandidates stored output))

/-! ## Directive model (src/src/core/execute/pp/directive/) -/

/-- Rust `char::is_whitespace`: the Unicode White_Space code points. -/
def rustIsWhitespace (c : Char) : Bool :=
  let n := c.toNat
  (0x09 ≤ n && n ≤ 0x0D) || n = 0x20 || n = 0x85 || n = 0xA0 || n = 0x1680 ||
  (0x2000 ≤ n && n ≤ 0x200A) || n = 0x2028 || n = 0x2029 || n = 0x202F ||
  n = 0x205F || n = 0x3000

/-- `str::trim_end_matches(char::is_whitespace)`. -/
def trimEndWs (s : Str) : Str := (s.reverse.dropWhile rustIsWhitespace).reverse

/-- `str::trim_matches(char::is_whitespace)`. -/
def trimWs (s : Str) : Str :=
  ((s.dropWhile rustIsWhitespace).reverse.dropWhile rustIsWhitespace).reverse

/-- `str::split_once(' ')`. -/
def splitOnceSpace (s : Str) : Option (Str × Str) :=
  match s.dropWhile (fun c => c ≠ ' ') with
  | [] => none
  | _ :: rest => some (s.takeWhile (fun c => c ≠ ' '), rest)

/-- `DirectiveType` (src/src/core/execute/pp/directive/mod.rs). -/
inductive DirectiveType : Type
  | Empty
  | Include
  | Run
  | Tag
  | Temp
  | Write
deriving DecidableEq, Repr

/-- `DirectiveType::try_from(&str)`. -/
def dtypeOfName (name : Str) : Option DirectiveType :=
  if name = [] then some .Empty
  else if name = str "include" then some .Include
  else if name = str "run" then some .Run
  else if name = str "tag" then some .Tag
  else if name = str "temp" then some .Temp
  else if name = str "write" then some .Write
  else none

/-- `DirectiveType::supports_multi_line`. -/
def DirectiveType.supports_multi_line : DirectiveType → Bool
  | .Include => false
  | .Tag => false
  | _ => true

/-- `Directive`; the source field `prefix` is a Lean keyword and is
renamed `pfx`. -/
structure Directive : Type where
  whitespaces : Str
  pfx : Str
  directive_type : DirectiveType
  args : List Str
deriving DecidableEq, Repr

/-- `Directive::detect_from` (src/src/core/execute/pp/directive/directive_from.rs). -/
def Directive.detect_from (line : Str) : Option Directive :=
  let i := (line.findIdx? (fun c => !rustIsWhitespace c)).getD line.length
  let whitespaces := line.take i
  let line1 := line.drop i
  match findSubstr line1 (str "TXTPP#") with
  | none => none
  | some j =>
    let pfx := line1.take j
    let afterHash := (line1.drop j).drop (str "TXTPP#").length
    let na := match splitOnceSpace afterHash with
      | some (n, a) => (n, trimWs a)
      | none => (afterHash, [])
    match dtypeOfName na.1 with
    | none => none
    | some ty => some { whitespaces := whitespaces, pfx := pfx,
                        directive_type := ty, args := [na.2] }

/-- `Directive::add_line` (src/src/core/execute/pp/directive/directive_add_line.rs). -/
def Directive.add_line (d : Directive) (line : Str) : Option Directive :=
  if !d.directive_type.supports_multi_line then none
  else if d.whitespaces.isPrefixOf line then
    let rest := line.drop d.whitespaces.length
    if rest = trimEndWs d.pfx then some { d with args := d.args ++ [[]] }
    else if d.pfx.isPrefixOf rest || (List.replicate d.pfx.length ' ').isPrefixOf rest then
      some { d with args := d.args ++ [trimEndWs (rest.drop d.pfx.length)] }
    else none
  else none

/-- `IterDirectiveResult` (src/src/core/execute/pp/mod.rs:388-397). -/
inductive IterDirectiveResult : Type
  | Break
  | NoneLine (line : Str)
  | LineTaken
  | Execute (d : Directive) (carry : Option Str)
deriving DecidableEq, Repr

/-- `Pp::iterate_directive` (src/src/core/execute/pp/mod.rs:159-206),
with the surrounding context reduced to the data the produced error
needs: the input file and the current line number. The returned pair is
the new `cur_directive` and the result. -/
def iterateDirective (file : Str) (curLine : Nat) (cur : Option Directive)
    (line : Option Str) : Except PpError (Option Directive × IterDirectiveResult) :=
  match line with
  | none =>
    match cur with
    | some d => .ok (none, .Execute d none)
    | none => .ok (none, .Break)
  | some l =>
    match cur with
    | none =>
      match Directive.detect_from l with
      | some d =>
        if d.directive_type.supports_multi_line && d.pfx = [] then
          .error { kind := .Directive, file := file, line := curLine }
        else .ok (some d, .LineTaken)
      | none => .ok (none, .NoneLine l)
    | some d =>
      match d.add_line l with
      | some d' => .ok (some d', .LineTaken)
      | none => .ok (none, .Execute d (some l))

/-! ## The per-file preprocessor runtime (src/src/core/execute/pp/mod.rs)

`Pp::run_internal` and the functions it calls are embedded with the
run mode fixed to `Mode::Build`/`Mode::InMemoryBuild`: the `Mode::Clean`
short-circuits (`execute_in_clean_mode`, `ignore_err_if_cleaning`) are
not taken, `write_output` appends to an in-memory buffer and cannot
fail, and the end-of-file unused-tag check is active. The IO context is
reduced to an environment of oracles for the effects a run can perform
(shell commands, include reads, dependency resolution, temp-file
writes) plus the configured line ending; `write_output` becomes the
`out` buffer of the state. The `DirectiveType::After` variant matched
by this file does not exist in the directive model under
src/src/core/execute/pp/directive/mod.rs, so no detected directive can
carry it and its branches are dropped. -/

/-- `TagState::has_tags`, called by `Pp::run_internal` at end of file;
its body is not among the sources. Modelled from the spec: the state
still has a listening tag or a non-empty store. -/
def TagState.has_tags (st : TagState) : Bool :=
  st.listening.isSome || !st.stored.isEmpty

/-- `PpMode` (src/src/core/execute/pp/mod.rs:398-405). -/
inductive PpMode : Type
  | FirstPassExecute
  | Execute
  | CollectDeps (deps : List Str)
deriving DecidableEq, Repr

/-- `PpMode::is_execute`. -/
def PpMode.is_execute : PpMode → Bool
  | .FirstPassExecute => true
  | .Execute => true
  | .CollectDeps _ => false

/-- `PpResult` (src/src/core/execute/pp/mod.rs:413-420). -/
inductive PpResult : Type
  | Ok (file : Str)
  | HasDeps (file : Str) (deps : List Str)
deriving DecidableEq, Repr

/-- The effect oracles a preprocessor run consults, together with the
configured line ending. `shellRun` is `Shell::run` with the working
directory and file fixed; `readInclude` is `try_resolve` plus
`fs::read_to_string` for an include argument; `depOf` is
`work_dir.join(arg).get_txtpp_file()` followed by `share_base` (`none`:
no txtpp source exists, `some (.error ())`: `share_base` failed,
`some (.ok p)`: the dependency path is `p`); `writeTemp` is
`IOCtx::write_temp_file` (`none`: success, `some k`: failure with error
kind `k`). -/
structure PpEnv : Type where
  lineEnding : Str
  shellRun : Str → Except Unit Str
  readInclude : Str → Except Unit Str
  depOf : Str → Option (Except Unit Str)
  writeTemp : Str → Str → Option PpErrorKind

/-- The mutable state of `Pp` during `run_internal`: the IO context's
line counter, the tag state, the pp mode, the in-memory output buffer,
the log of performed temp-file writes, and the trace of emitted chunks.
Each `emits` entry records the chunk passed to `write_output`, the
`has_tail` flag of its emission (the emission left a carry line), and
whether the chunk came from a directive rather than a passthrough
line. -/
structure PpState : Type where
  curLine : Nat
  tag : TagState
  ppMode : PpMode
  out : Str
  temps : List (Str × Str)
  emits : List (Str × Bool × Bool)
deriving DecidableEq, Repr

/-- `Pp::format_directive_output` (src/src/core/execute/pp/mod.rs:347-361). -/
def formatDirectiveOutput (le whitespaces : Str) (raw_output : List Str)
    (has_trailing_newline : Bool) : Str :=
  (List.intercalate le (raw_output.map (fun s => whitespaces ++ s)))
    ++ (if has_trailing_newline then le else [])

/-- `Pp::execute_in_collect_deps_mode`
(src/src/core/execute/pp/mod.rs:281-321): in Execute mode the directive
passes through; otherwise an Include whose argument resolves to a txtpp
source is recorded as a dependency (entering or extending CollectDeps)
and consumed, and in CollectDeps mode every other directive is
consumed. -/
def executeInCollectDepsMode (env : PpEnv) (file : Str) (st : PpState) (d : Directive) :
    Except PpError (PpState × Option Directive) :=
  match st.ppMode with
  | .Execute => .ok (st, some d)
  | _ =>
    if d.directive_type = .Include then
      match env.depOf (d.args.headD []) with
      | some (.error _) => .error { kind := .Directive, file := file, line := st.curLine }
      | some (.ok p) =>
        match st.ppMode with
        | .CollectDeps deps => .ok ({ st with ppMode := .CollectDeps (deps ++ [p]) }, none)
        | _ => .ok ({ st with ppMode := .CollectDeps [p] }, none)
      | none =>
        match st.ppMode with
        | .CollectDeps _ => .ok (st, none)
        | _ => .ok (st, some d)
    else
      match st.ppMode with
      | .CollectDeps _ => .ok (st, none)
      | _ => .ok (st, some d)

/-- `Pp::execute_directive_temp` (src/src/core/execute/pp/mod.rs:323-345)
with `is_clean = false`. The export path is checked at file-name level
by the path model. -/
def executeDirectiveTemp (env : PpEnv) (file : Str) (st : PpState) (args : List Str) :
    Except PpError PpState :=
  match args.head? with
  | none => .error { kind := .Directive, file := file, line := st.curLine }
  | some export_file =>
    if is_txtpp_file export_file then
      .error { kind := .Directive, file := file, line := st.curLine }
    else
      let contents := formatDirectiveOutput env.lineEnding [] (args.drop 1) false
      match env.writeTemp export_file contents with
      | some k => .error { kind := k, file := file, line := st.curLine }
      | none => .ok { st with temps := st.temps ++ [(export_file, contents)] }

/-- `Pp::execute_directive` (src/src/core/execute/pp/mod.rs:209-270) in a
non-Clean mode: the collect-deps filter runs first, then the surviving
directive produces its raw output. Every oracle failure becomes a
Directive error at the current line. -/
def executeDirective (env : PpEnv) (file : Str) (st : PpState) (d : Directive) :
    Except PpError (PpState × Option Str) :=
  match executeInCollectDepsMode env file st d with
  | .error e => .error e
  | .ok (st1, none) => .ok (st1, none)
  | .ok (st1, some d) =>
    match d.directive_type with
    | .Empty => .ok (st1, none)
    | .Run =>
      match env.shellRun (List.intercalate (str " ") d.args) with
      | .error _ => .error { kind := .Directive, file := file, line := st1.curLine }
      | .ok output => .ok (st1, some output)
    | .Include =>
      match env.readInclude (d.args.headD []) with
      | .error _ => .error { kind := .Directive, file := file, line := st1.curLine }
      | .ok output => .ok (st1, some output)
    | .Temp =>
      match executeDirectiveTemp env file st1 d.args with
      | .error e => .error e
      | .ok st2 => .ok (st2, none)
    | .Tag =>
      let r := TagState.create st1.tag (d.args.headD [])
      match r.2 with
      | .error _ => .error { kind := .Directive, file := file, line := st1.curLine }
      | .ok _ => .ok ({ st1 with tag := r.1 }, none)
    | .Write => .ok (st1, some (List.intercalate (str "\n") d.args))

/-- The `IterDirectiveResult::Execute` arm of the `run_internal` loop
(src/src/core/execute/pp/mod.rs:83-102): execute the directive; if it
produced raw output, offer it to a listening tag, and only when no tag
captured it format it (with the directive's whitespaces, per source
line, with a trailing line ending iff the raw output ended in a
newline) for writing. -/
def executeChunk (env : PpEnv) (file : Str) (st : PpState) (d : Directive) :
    Except PpError (PpState × Option Str) :=
  match executeDirective env file st d with
  | .error e => .error e
  | .ok (st1, none) => .ok (st1, none)
  | .ok (st1, some raw) =>
    let ts := TagState.try_store st1.tag raw
    if ts.2 then .ok ({ st1 with tag := ts.1 }, none)
    else .ok (st1, some (formatDirectiveOutput env.lineEnding d.whitespaces
      (rustLines raw) (decide (raw.getLast? = some '\n'))))

/-- The write block of the `run_internal` loop
(src/src/core/execute/pp/mod.rs:114-122): in an execute mode, an actual
chunk is written after a line ending if the `add_newline_before_next_output`
flag was set, and the flag becomes the negation of `has_tail`. Returns
the new state and the new flag, and records the emission. -/
def writeOut (le : Str) (st : PpState) (to_write : Option Str) (has_tail is_directive : Bool)
    (flag : Bool) : PpState × Bool :=
  if st.ppMode.is_execute then
    match to_write with
    | some x =>
      ({ st with
          out := st.out ++ (if flag then le else []) ++ x,
          emits := st.emits ++ [(x, has_tail, is_directive)] }, !has_tail)
    | none => (st, flag)
  else (st, flag)

/-- One iteration of the `run_internal` loop on an already-fetched line:
`iterate_directive` followed by the arm-specific work and the write
block. Returns `none` for `Break`, otherwise the new current directive,
the carry line stashed into `execute_tail_line`, the new state and the
new flag. -/
def ppStep (env : PpEnv) (file : Str) (st : PpState) (cur : Option Directive)
    (line : Option Str) (flag : Bool) :
    Except PpError (Option (Option Directive × Option Str × PpState × Bool)) :=
  match iterateDirective file st.curLine cur line with
  | .error e => .error e
  | .ok (cur1, r) =>
    match r with
    | .Break => .ok none
    | .LineTaken => .ok (some (cur1, none, st, flag))
    | .NoneLine l =>
      let pr := if st.ppMode.is_execute
        then TagState.inject_tags st.tag l env.lineEnding
        else (l, st.tag)
      let p := writeOut env.lineEnding { st with tag := pr.2 } (some pr.1) false false flag
      .ok (some (cur1, none, p.1, p.2))
    | .Execute d carry =>
      match executeChunk env file st d with
      | .error e => .error e
      | .ok (st1, to_write) =>
        let p := writeOut env.lineEnding st1 to_write carry.isSome true flag
        .ok (some (cur1, carry, p.1, p.2))

/-- The `run_internal` loop (src/src/core/execute/pp/mod.rs:62-123) over
the input lines. `get_next_line` increments the line counter only when
it reads from the input; a line stashed by an `Execute` step is
re-processed immediately, before the next input line and without an
increment. A stashed line is always processed with no current
directive, so it can never produce another carry; the carry slot of the
second step is therefore ignored. At end of input, a final `Execute`
step runs the pending directive and the following iteration breaks. -/
def ppLoop (env : PpEnv) (file : Str) : List Str → Option Directive → PpState → Bool →
    Except PpError (PpState × Bool)
  | [], cur, st, flag =>
    match ppStep env file st cur none flag with
    | .error e => .error e
    | .ok none => .ok (st, flag)
    | .ok (some (_, _, st1, flag1)) => .ok (st1, flag1)
  | l :: rest, cur, st, flag =>
    match ppStep env file { st with curLine := st.curLine + 1 } cur (some l) flag with
    | .error e => .error e
    | .ok none => .ok ({ st with curLine := st.curLine + 1 }, flag)
    | .ok (some (cur1, none, st1, flag1)) => ppLoop env file rest cur1 st1 flag1
    | .ok (some (cur1, some sl, st1, flag1)) =>
      match ppStep env file st1 cur1 (some sl) flag1 with
      | .error e => .error e
      | .ok none => .ok (st1, flag1)
      | .ok (some (cur2, _, st2, flag2)) => ppLoop env file rest cur2 st2 flag2

/-- `Pp::run_internal` (src/src/core/execute/pp/mod.rs:59-144) from the
initial state: run the loop, return collected dependencies if any, fail
on unused tags, and append one final line ending iff the newline flag
survived the loop and `trailing_newline` is configured. The file-system
effects of `IOCtx::done` are outside the model; the produced output is
the `out` buffer of the returned state. -/
def ppRun (env : PpEnv) (file : Str) (lines : List Str)
    (is_first_pass trailing_newline : Bool) : Except PpError (PpState × PpResult) :=
  let st0 : PpState :=
    { curLine := 0, tag := TagState.new,
      ppMode := if is_first_pass then .FirstPassExecute else .Execute,
      out := [], temps := [], emits := [] }
  match ppLoop env file lines none st0 false with
  | .error e => .error e
  | .ok (st, flag) =>
    match st.ppMode with
    | .CollectDeps deps => .ok (st, .HasDeps file deps)
    | _ =>
      if st.tag.has_tags then
        .error { kind := .Directive, file := file, line := st.curLine }
      else if flag && trailing_newline then
        .ok ({ st with out := st.out ++ env.lineEnding }, .Ok file)
      else .ok (st, .Ok file)

/-- An environment with inert oracles: Unix line ending, every shell
command and include read failing, no dependency resolves, every
temp write failing. Runs that never consult an oracle do not depend on
these choices. -/
def envTriv : PpEnv :=
  { lineEnding := str "\n"
    shellRun := fun _ => .error ()
    readInclude := fun _ => .error ()
    depOf := fun _ => none
    writeTemp := fun _ _ => some .WriteFile }

/-- A state in plain Execute mode with empty buffers. -/
def execState : PpState :=
  { curLine := 1, tag := TagState.new, ppMode := .Execute,
    out := [], temps := [], emits := [] }

/-- Modelled from the spec: the Write directive's raw output is
`args[1..]` joined by a newline, the leading argument discarded. -/
def writeRawSpec (args : List Str) : Str :=
  List.intercalate (str "\n") (args.drop 1)

/-- Render an emission trace under the newline discipline of the code:
before each chunk one line ending iff the flag is set, and afterwards
the flag is the negation of the emission's `has_tail`. -/
def renderFrom (le : Str) (flag : Bool) : List (Str × Bool × Bool) → Str
  | [] => []
  | e :: rest => (if flag then le else []) ++ e.1 ++ renderFrom le (!e.2.1) rest

/-- The flag left by an emission trace under the discipline of the code. -/
def flagAfter (flag : Bool) : List (Str × Bool × Bool) → Bool
  | [] => flag
  | e :: rest => flagAfter (!e.2.1) rest

/-- The complete output of a run under the discipline of the code: the
rendered trace, plus one final line ending iff the surviving flag and
the `trailing_newline` configuration are both set. -/
def renderAmended (le : Str) (trailing_newline : Bool)
    (ems : List (Str × Bool × Bool)) : Str :=
  renderFrom le false ems ++ (if flagAfter false ems && trailing_newline then le else [])

/-- Render an emission trace under the discipline the claim states:
after each chunk the flag is set iff the emission was a directive that
left no carry line. -/
def renderClaimedFrom (le : Str) (flag : Bool) : List (Str × Bool × Bool) → Str
  | [] => []
  | e :: rest => (if flag then le else []) ++ e.1 ++ renderClaimedFrom le (e.2.2 && !e.2.1) rest

/-- The flag left by an emission trace under the claim's discipline. -/
def claimedFlagAfter (flag : Bool) : List (Str × Bool × Bool) → Bool
  | [] => flag
  | e :: rest => claimedFlagAfter (e.2.2 && !e.2.1) rest

/-- The complete output of a run under the claim's discipline. -/
def renderClaimed (le : Str) (trailing_newline : Bool)
    (ems : List (Str × Bool × Bool)) : Str :=
  renderClaimedFrom le false ems
    ++ (if claimedFlagAfter false ems && trailing_newline then le else [])

/-- A step of the run extended the emission trace by `Δ`, appended the
rendering of `Δ` under the incoming flag to the output buffer, and left
the flag the trace prescribes. -/
def RenderDelta (le : Str) (a b : PpState × Bool) : Prop :=
  ∃ Δ, b.1.emits = a.1.emits ++ Δ ∧
    b.1.out = a.1.out ++ renderFrom le a.2 Δ ∧
    b.2 = flagAfter a.2 Δ

/-- The final state of the C3 witness run: the single passthrough line
`a` is emitted with its injected line ending, and the trailing line
ending is appended because the flag survived. -/
def c3WitState : PpState :=
  { curLine := 1, tag := TagState.new, ppMode := .Execute,
    out := str "a\n\n", temps := [], emits := [(str "a\n", false, false)] }

theorem lookupA_setA_self {V β : Type} [DecidableEq V] (l : List (V × β)) (k : V) (v : β) :
    lookupA (setA l k v) k = some v := by
  induction l with
  | nil => simp [setA, lookupA]
  | cons p rest ih =>
    obtain ⟨k', w⟩ := p
    by_cases h : k' = k <;> simp [setA, lookupA, h, ih]

theorem lookupA_setA_ne {V β : Type} [DecidableEq V] (l : List (V × β)) (k x : V) (v : β)
    (h : x ≠ k) : lookupA (setA l k v) x = lookupA l x := by
  have hkx : k ≠ x := fun hh => h hh.symm
  induction l with
  | nil => simp [setA, lookupA, hkx]
  | cons p rest ih =>
    obtain ⟨k', w⟩ := p
    by_cases hk : k' = k
    · subst hk
      simp [setA, lookupA, hkx]
    · simp only [setA, if_neg hk, lookupA]
      by_cases hx : k' = x <;> simp [hx, ih]

theorem lookupA_removeA_self {V β : Type} [DecidableEq V] (l : List (V × β)) (x : V) :
    lookupA (removeA l x) x = none := by
  induction l with
  | nil => simp [removeA, lookupA]
  | cons p rest ih =>
    obtain ⟨k, v⟩ := p
    simp only [removeA, List.filter_cons] at ih ⊢
    by_cases h : k = x
    · simpa [h] using ih
    · simpa [lookupA, h] using ih

theorem lookupA_removeA_ne {V β : Type} [DecidableEq V] (l : List (V × β)) (k x : V)
    (h : x ≠ k) : lookupA (removeA l k) x = lookupA l x := by
  induction l with
  | nil => simp [removeA, lookupA]
  | cons p rest ih =>
    obtain ⟨k', v⟩ := p
    by_cases hk : k' = k
    · subst hk
      have hx : k' ≠ x := fun hh => h hh.symm
      simpa [removeA, List.filter_cons, lookupA, hx] using ih
    · simp only [removeA, ne_eq, decide_not] at ih
      by_cases hx : k' = x
      · subst hx
        simp [removeA, List.filter_cons, lookupA, hk, ih]
      · simp [removeA, List.filter_cons, lookupA, hk, hx, ih]

theorem mem_setA {V β : Type} [DecidableEq V] {l : List (V × β)} {k : V} {v : β} {p : V × β}
    (h : p ∈ setA l k v) : p = (k, v) ∨ p ∈ l := by
  induction l with
  | nil => simpa [setA] using h
  | cons q rest ih =>
    obtain ⟨k', w⟩ := q
    by_cases hk : k' = k
    · simp [setA, hk] at h
      rcases h with h | h
      · exact Or.inl (by simp [h])
      · exact Or.inr (by simp [h])
    · simp [setA, hk] at h
      rcases h with h | h
      · exact Or.inr (by simp [h])
      · rcases ih h with h' | h'
        · exact Or.inl h'
        · exact Or.inr (by simp [h'])

theorem mem_removeA {V β : Type} [DecidableEq V] {l : List (V × β)} {x : V} {p : V × β}
    (h : p ∈ removeA l x) : p ∈ l ∧ p.1 ≠ x := by
  simp only [removeA, List.mem_filter, decide_eq_true_eq] at h
  exact ⟨h.1, h.2⟩

theorem keys_setA_mem {V β : Type} [DecidableEq V] {l : List (V × β)} {k b : V} {v : β}
    (h : b ∈ (setA l k v).map Prod.fst) : b = k ∨ b ∈ l.map Prod.fst := by
  rcases List.mem_map.1 h with ⟨p, hp, rfl⟩
  rcases mem_setA hp with h' | h'
  · left
    rw [h']
  · right
    exact List.mem_map.2 ⟨p, h', rfl⟩

theorem keys_nodup_setA {V β : Type} [DecidableEq V] {l : List (V × β)} (k : V) (v : β)
    (h : (l.map Prod.fst).Nodup) : ((setA l k v).map Prod.fst).Nodup := by
  induction l with
  | nil => simp [setA]
  | cons p rest ih =>
    obtain ⟨k', w⟩ := p
    rw [List.map_cons, List.nodup_cons] at h
    by_cases hk : k' = k
    · subst hk
      rw [show setA ((k', w) :: rest) k' v = (k', v) :: rest from by simp [setA]]
      simp only [List.map_cons, List.nodup_cons]
      exact h
    · simp only [setA, if_neg hk, List.map_cons, List.nodup_cons]
      refine ⟨fun hb => ?_, ih h.2⟩
      rcases keys_setA_mem hb with rfl | hb'
      · exact hk rfl
      · exact h.1 hb'

theorem keys_nodup_removeA {V β : Type} [DecidableEq V] {l : List (V × β)} (x : V)
    (h : (l.map Prod.fst).Nodup) : ((removeA l x).map Prod.fst).Nodup :=
  List.Nodup.sublist (List.Sublist.map Prod.fst (List.filter_sublist l)) h

theorem lookupA_none_iff {V β : Type} [DecidableEq V] {l : List (V × β)} {x : V} :
    lookupA l x = none ↔ x ∉ l.map Prod.fst := by
  induction l with
  | nil => simp [lookupA]
  | cons p rest ih =>
    obtain ⟨k, v⟩ := p
    simp only [lookupA, List.map_cons, List.mem_cons, not_or]
    by_cases h : k = x
    · simp [h]
    · simp only [if_neg h, ih]
      constructor
      · intro hx
        exact ⟨fun he => h he.symm, hx⟩
      · intro hx
        exact hx.2

theorem lookupA_isSome_iff {V β : Type} [DecidableEq V] {l : List (V × β)} {x : V} :
    (lookupA l x).isSome ↔ x ∈ l.map Prod.fst := by
  constructor
  · intro h
    by_contra hx
    rw [lookupA_none_iff.2 hx] at h
    simp at h
  · intro h
    by_contra hs
    rw [Option.not_isSome_iff_eq_none] at hs
    exact (lookupA_none_iff.1 hs) h

theorem setA_of_lookup_none {V β : Type} [DecidableEq V] {l : List (V × β)} {x : V} (v : β)
    (h : lookupA l x = none) : setA l x v = l ++ [(x, v)] := by
  induction l with
  | nil => simp [setA]
  | cons p rest ih =>
    obtain ⟨k, w⟩ := p
    by_cases hk : k = x
    · simp [lookupA, hk] at h
    · simp only [lookupA, if_neg hk] at h
      simp [setA, hk, ih h]

theorem setA_decomp {V β : Type} [DecidableEq V] {l : List (V × β)} {x : V} {w : β} (v : β)
    (h : lookupA l x = some w) :
    ∃ l1 l2, l = l1 ++ (x, w) :: l2 ∧ setA l x v = l1 ++ (x, v) :: l2 ∧
      x ∉ l1.map Prod.fst := by
  induction l with
  | nil => simp [lookupA] at h
  | cons p rest ih =>
    obtain ⟨k, u⟩ := p
    by_cases hk : k = x
    · subst hk
      have hw : u = w := by simpa [lookupA] using h
      subst hw
      exact ⟨[], rest, by simp, by simp [setA], by simp⟩
    · simp only [lookupA, if_neg hk] at h
      obtain ⟨l1, l2, hl, hs, hm⟩ := ih h
      exact ⟨(k, u) :: l1, l2, by simp [hl], by simp [setA, hk, hs], by simp [hm, Ne.symm hk]⟩

theorem removeA_of_key_free {V β : Type} [DecidableEq V] {l : List (V × β)} {x : V}
    (h : x ∉ l.map Prod.fst) : removeA l x = l := by
  induction l with
  | nil => rfl
  | cons p rest ih =>
    obtain ⟨k, v⟩ := p
    simp only [List.map_cons, List.mem_cons, not_or] at h
    have hk : k ≠ x := fun he => h.1 he.symm
    have ht : removeA rest x = rest := ih h.2
    simp only [removeA] at ht
    simp [removeA, List.filter_cons, hk, ht]
    intro a b hab hax
    exact h.2 (hax ▸ List.mem_map.2 ⟨(a, b), hab, rfl⟩)

theorem removeA_append {V β : Type} [DecidableEq V] (l1 l2 : List (V × β)) (x : V) :
    removeA (l1 ++ l2) x = removeA l1 x ++ removeA l2 x := by
  simp [removeA, List.filter_append]

theorem mem_finIns {V : Type} [DecidableEq V] (fin : List V) (f b : V) :
    b ∈ finIns fin f ↔ (b ∈ fin ∨ b = f) := by
  unfold finIns
  by_cases hf : f ∈ fin
  · rw [if_pos hf]
    constructor
    · exact Or.inl
    · rintro (h | rfl)
      · exact h
      · exact hf
  · rw [if_neg hf]
    simp

theorem lookupA_mem {V β : Type} [DecidableEq V] {l : List (V × β)} {b : V} {w : β}
    (h : lookupA l b = some w) : (b, w) ∈ l := by
  induction l with
  | nil => simp [lookupA] at h
  | cons p rest ih =>
    obtain ⟨k, v⟩ := p
    by_cases hk : k = b
    · subst hk
      have : v = w := by simpa [lookupA] using h
      simp [this]
    · simp only [lookupA, if_neg hk] at h
      simp [ih h]

theorem countP_setA_some {V β : Type} [DecidableEq V] {l : List (V × β)} {b : V} {w : β}
    (h : lookupA l b = some w) (P : V × β → Bool) (v : β) :
    (setA l b v).countP P + (if P (b, w) then 1 else 0)
      = l.countP P + (if P (b, v) then 1 else 0) := by
  obtain ⟨l1, l2, hl, hs, -⟩ := setA_decomp v h
  rw [hs, hl]
  simp only [List.countP_append, List.countP_cons]
  by_cases h1 : P (b, w) <;> by_cases h2 : P (b, v) <;> simp [h1, h2] <;> omega

theorem countP_setA_none {V β : Type} [DecidableEq V] {l : List (V × β)} {b : V}
    (h : lookupA l b = none) (P : V × β → Bool) (v : β) :
    (setA l b v).countP P = l.countP P + (if P (b, v) then 1 else 0) := by
  rw [setA_of_lookup_none v h]
  simp only [List.countP_append, List.countP_cons, List.countP_nil]
  omega

/-- Combined description of the `add_dependency` loop: structural facts
about the updated `in_edges`, the returned flag, the count delta for the
depender, count preservation for other vertices, and the exact effect on
every dependers list. -/
theorem addDep_fold {V : Type} [DecidableEq V] (fin : List V) (A : V) :
    ∀ (ds : List V) (ie : List (V × List V)) (cnt : Nat) (added : Bool),
    (ie.map Prod.fst).Nodup →
    (∀ p ∈ ie, (p.2 : List V).Nodup) →
    (∀ p ∈ ie, p.1 ∉ fin) →
    ((((ds.foldl (addDepStep fin A) (ie, cnt, added)).1.map Prod.fst).Nodup) ∧
     (∀ p ∈ (ds.foldl (addDepStep fin A) (ie, cnt, added)).1, (p.2 : List V).Nodup) ∧
     (∀ p ∈ (ds.foldl (addDepStep fin A) (ie, cnt, added)).1, p.1 ∉ fin) ∧
     (∀ p ∈ (ds.foldl (addDepStep fin A) (ie, cnt, added)).1, ∀ a ∈ p.2,
        a = A ∨ ∃ q ∈ ie, a ∈ q.2) ∧
     ((ds.foldl (addDepStep fin A) (ie, cnt, added)).2.2
        = (added || ds.any (fun b => decide (b ∉ fin)))) ∧
     ((ds.foldl (addDepStep fin A) (ie, cnt, added)).2.1 + ie.countP (liveP fin A)
        = cnt + (ds.foldl (addDepStep fin A) (ie, cnt, added)).1.countP (liveP fin A)) ∧
     (∀ B, B ≠ A → (ds.foldl (addDepStep fin A) (ie, cnt, added)).1.countP (liveP fin B)
        = ie.countP (liveP fin B)) ∧
     (∀ b, (lookupA (ds.foldl (addDepStep fin A) (ie, cnt, added)).1 b).getD []
        = (if b ∈ ds ∧ b ∉ fin ∧ A ∉ (lookupA ie b).getD []
           then (lookupA ie b).getD [] ++ [A] else (lookupA ie b).getD []))) := by
  intro ds
  induction ds with
  | nil =>
    intro ie cnt added h1 h2 h3
    refine ⟨h1, h2, h3, fun p hp a ha => Or.inr ⟨p, hp, ha⟩, by simp, by simp, fun B _ => rfl,
      fun b => by simp⟩
  | cons d rest ih =>
    intro ie cnt added h1 h2 h3
    rw [List.foldl_cons]
    by_cases hdf : d ∈ fin
    · rw [show addDepStep fin A (ie, cnt, added) d = (ie, cnt, added) from by
        simp [addDepStep, hdf]]
      obtain ⟨c1, c2, c3, c4, c5, c6, c7, c8⟩ := ih ie cnt added h1 h2 h3
      refine ⟨c1, c2, c3, c4, ?_, c6, c7, ?_⟩
      · rw [c5, List.any_cons]
        simp [hdf]
      · intro b
        rw [c8 b]
        by_cases hbd : b = d
        · subst hbd
          simp [hdf]
        · simp [List.mem_cons, hbd]
    · set ds0 : List V := (lookupA ie d).getD [] with hds0
      by_cases hAd : A ∈ ds0
      · rw [show addDepStep fin A (ie, cnt, added) d = (ie, cnt, true) from by
          simp only [addDepStep, if_neg hdf, ← hds0]
          simp [hAd]]
        obtain ⟨c1, c2, c3, c4, c5, c6, c7, c8⟩ := ih ie cnt true h1 h2 h3
        refine ⟨c1, c2, c3, c4, ?_, c6, c7, ?_⟩
        · rw [c5, List.any_cons]
          simp [hdf]
        · intro b
          rw [c8 b]
          by_cases hbd : b = d
          · subst hbd
            simp [hAd]
          · simp [List.mem_cons, hbd]
      · -- a new live edge (A, d) is inserted
        have hnd0 : ds0.Nodup := by
          rcases ho : lookupA ie d with _ | w
          · simp [hds0, ho]
          · exact hds0 ▸ (by simpa [ho] using h2 _ (lookupA_mem ho))
        set ie1 : List (V × List V) := setA ie d (ds0 ++ [A]) with hie1
        rw [show addDepStep fin A (ie, cnt, added) d = (ie1, cnt + 1, true) from by
          simp only [addDepStep, if_neg hdf, ← hds0]
          simp [hAd, hie1]]
        have g1 : (ie1.map Prod.fst).Nodup := keys_nodup_setA _ _ h1
        have g2 : ∀ p ∈ ie1, (p.2 : List V).Nodup := by
          intro p hp
          rcases mem_setA hp with rfl | hp'
          · rw [List.nodup_append]
            refine ⟨hnd0, List.nodup_singleton _, ?_⟩
            intro a ha hA
            rw [List.mem_singleton] at hA
            subst hA
            exact hAd ha
          · exact h2 p hp'
        have g3 : ∀ p ∈ ie1, p.1 ∉ fin := by
          intro p hp
          rcases mem_setA hp with rfl | hp'
          · exact hdf
          · exact h3 p hp'
        obtain ⟨c1, c2, c3, c4, c5, c6, c7, c8⟩ := ih ie1 (cnt + 1) true g1 g2 g3
        have hlk1 : ∀ b, lookupA ie1 b = if b = d then some (ds0 ++ [A]) else lookupA ie b := by
          intro b
          by_cases hbd : b = d
          · subst hbd
            simp [hie1, lookupA_setA_self]
          · simp [hbd, hie1, lookupA_setA_ne _ _ _ _ hbd]
        have hcntA : ie1.countP (liveP fin A) = ie.countP (liveP fin A) + 1 := by
          rcases ho : lookupA ie d with _ | w
          · rw [hie1, countP_setA_none ho]
            have : liveP fin A (d, ds0 ++ [A]) = true := by
              simp [liveP, hdf]
            simp [this]
          · have hw : ds0 = w := by simp [hds0, ho]
            have hthis := countP_setA_some ho (liveP fin A) (ds0 ++ [A])
            have hfalse : liveP fin A (d, w) = false := by
              rw [← hw]
              simp [liveP, hAd]
            have htrue : liveP fin A (d, ds0 ++ [A]) = true := by
              simp [liveP, hdf]
            rw [hfalse, htrue] at hthis
            simp at hthis
            rw [hie1]
            omega
        have hcntB : ∀ B, B ≠ A → ie1.countP (liveP fin B) = ie.countP (liveP fin B) := by
          intro B hBA
          have hmem : liveP fin B (d, ds0 ++ [A]) = liveP fin B (d, ds0) := by
            simp only [liveP, List.mem_append, List.mem_singleton]
            by_cases hB : B ∈ ds0 <;> simp [hB, hBA]
          rcases ho : lookupA ie d with _ | w
          · have hds0nil : ds0 = [] := by simp [hds0, ho]
            have hfalse : liveP fin B (d, ds0 ++ [A]) = false := by
              rw [hmem, hds0nil]
              simp [liveP]
            rw [hie1, countP_setA_none ho, hfalse]
            simp
          · have hw : ds0 = w := by simp [hds0, ho]
            have hthis := countP_setA_some ho (liveP fin B) (ds0 ++ [A])
            rw [hmem, ← hw] at hthis
            rw [hie1]
            omega
        refine ⟨c1, c2, c3, ?_, ?_, ?_, ?_, ?_⟩
        · intro p hp a ha
          rcases c4 p hp a ha with rfl | ⟨q, hq, haq⟩
          · exact Or.inl rfl
          · rcases mem_setA hq with rfl | hq'
            · rcases List.mem_append.1 haq with haq' | haq'
              · rcases ho : lookupA ie d with _ | w
                · simp [hds0, ho] at haq'
                · exact Or.inr ⟨(d, w), lookupA_mem ho, by
                    have hw : ds0 = w := by simp [hds0, ho]
                    exact hw ▸ haq'⟩
              · exact Or.inl (by simpa using haq')
            · exact Or.inr ⟨q, hq', haq⟩
        · rw [c5, List.any_cons]
          simp [hdf]
        · rw [hcntA] at c6
          omega
        · intro B hBA
          rw [c7 B hBA, hcntB B hBA]
        · intro b
          rw [c8 b, hlk1 b]
          by_cases hbd : b = d
          · rw [if_pos hbd]
            simp only [Option.getD_some]
            have hds0b : (lookupA ie b).getD [] = ds0 := by rw [hbd]
            have hAmem : A ∈ ds0 ++ [A] := by simp
            rw [if_neg (fun hc => hc.2.2 hAmem),
              if_pos ⟨by rw [hbd]; exact List.mem_cons_self d rest,
                by rw [hbd]; exact hdf, by rw [hds0b]; exact hAd⟩, hds0b]
          · rw [if_neg hbd]
            simp [List.mem_cons, hbd]

/-- Description of the `notify_finish` loop over the dependers of the
finished vertex: counts end up at their target values, and an entry is
dropped only when its target count is zero. -/
theorem notify_fold {V : Type} [DecidableEq V] (tgt : V → Nat) :
    ∀ (ds : List V) (counts : List (V × Nat)) (out : List V),
    ds.Nodup →
    (counts.map Prod.fst).Nodup →
    (∀ a ∈ ds, (lookupA counts a).isSome) →
    (∀ B c, lookupA counts B = some c → c = tgt B + (if B ∈ ds then 1 else 0)) →
    ((((ds.foldl notifyStep (out, counts)).2.map Prod.fst).Nodup) ∧
     (∀ B c, lookupA (ds.foldl notifyStep (out, counts)).2 B = some c → c = tgt B) ∧
     (∀ B, lookupA (ds.foldl notifyStep (out, counts)).2 B = none →
        lookupA counts B = none ∨ (B ∈ ds ∧ tgt B = 0))) := by
  intro ds
  induction ds with
  | nil =>
    intro counts out _ hnd _ hc
    refine ⟨hnd, fun B c hBc => by simpa using hc B c hBc, fun B hB => Or.inl hB⟩
  | cons d rest ih =>
    intro counts out hds hnd hsome hc
    rw [List.nodup_cons] at hds
    rcases ho : lookupA counts d with _ | c0
    · exact absurd (by simp [ho] : ¬(lookupA counts d).isSome)
        (by simp [hsome d (List.mem_cons_self d rest)])
    · have hc0 : c0 = tgt d + 1 := by simpa using hc d c0 ho
      rw [List.foldl_cons, show notifyStep (out, counts) d
          = (if c0 ≤ 1 then (out ++ [d], removeA counts d)
             else (out, setA counts d (c0 - 1))) from by simp [notifyStep, ho]]
      by_cases hle : c0 ≤ 1
      · -- the count reaches zero and the depender entry is removed
        have htgt0 : tgt d = 0 := by omega
        rw [if_pos hle]
        have k1 : ((removeA counts d).map Prod.fst).Nodup := keys_nodup_removeA _ hnd
        have k2 : ∀ a ∈ rest, (lookupA (removeA counts d) a).isSome := by
          intro a ha
          rw [lookupA_removeA_ne _ _ _ (fun he => hds.1 (by rw [← he]; exact ha))]
          exact hsome a (List.mem_cons_of_mem d ha)
        have k3 : ∀ B c, lookupA (removeA counts d) B = some c
            → c = tgt B + (if B ∈ rest then 1 else 0) := by
          intro B c hBc
          by_cases hBd : B = d
          · rw [hBd, lookupA_removeA_self] at hBc
            exact absurd hBc (by simp)
          · rw [lookupA_removeA_ne _ _ _ hBd] at hBc
            have := hc B c hBc
            rw [show (if B ∈ d :: rest then (1 : Nat) else 0)
                = (if B ∈ rest then 1 else 0) from by simp [List.mem_cons, hBd]] at this
            exact this
        obtain ⟨r1, r2, r3⟩ := ih (removeA counts d) (out ++ [d]) hds.2 k1 k2 k3
        refine ⟨r1, r2, fun B hB => ?_⟩
        rcases r3 B hB with hB' | hB'
        · by_cases hBd : B = d
          · exact Or.inr ⟨by simp [hBd], hBd ▸ htgt0⟩
          · rw [lookupA_removeA_ne _ _ _ hBd] at hB'
            exact Or.inl hB'
        · exact Or.inr ⟨List.mem_cons_of_mem d hB'.1, hB'.2⟩
      · -- the count is decremented
        rw [if_neg hle]
        have k1 : ((setA counts d (c0 - 1)).map Prod.fst).Nodup := keys_nodup_setA _ _ hnd
        have k2 : ∀ a ∈ rest, (lookupA (setA counts d (c0 - 1)) a).isSome := by
          intro a ha
          by_cases had : a = d
          · rw [had, lookupA_setA_self]
            simp
          · rw [lookupA_setA_ne _ _ _ _ had]
            exact hsome a (List.mem_cons_of_mem d ha)
        have k3 : ∀ B c, lookupA (setA counts d (c0 - 1)) B = some c
            → c = tgt B + (if B ∈ rest then 1 else 0) := by
          intro B c hBc
          by_cases hBd : B = d
          · rw [hBd, lookupA_setA_self] at hBc
            have hcd : c = c0 - 1 := (Option.some.inj hBc).symm
            rw [hcd, hBd, hc0, if_neg hds.1]
            omega
          · rw [lookupA_setA_ne _ _ _ _ hBd] at hBc
            have := hc B c hBc
            rw [show (if B ∈ d :: rest then (1 : Nat) else 0)
                = (if B ∈ rest then 1 else 0) from by simp [List.mem_cons, hBd]] at this
            exact this
        obtain ⟨r1, r2, r3⟩ := ih (setA counts d (c0 - 1)) out hds.2 k1 k2 k3
        refine ⟨r1, r2, fun B hB => ?_⟩
        rcases r3 B hB with hB' | hB'
        · by_cases hBd : B = d
          · rw [hBd, lookupA_setA_self] at hB'
            exact absurd hB' (by simp)
          · rw [lookupA_setA_ne _ _ _ _ hBd] at hB'
            exact Or.inl hB'
        · exact Or.inr ⟨List.mem_cons_of_mem d hB'.1, hB'.2⟩

theorem countP_ext {α : Type} (p q : α → Bool) (l : List α) (h : ∀ a ∈ l, p a = q a) :
    l.countP p = l.countP q := by
  induction l with
  | nil => rfl
  | cons a rest ih =>
    rw [List.countP_cons, List.countP_cons, h a (List.mem_cons_self a rest),
      ih fun b hb => h b (List.mem_cons_of_mem a hb)]

theorem Inv_empty {V : Type} [DecidableEq V] : Inv (DepManager.empty V) := by
  refine ⟨by simp [DepManager.empty], by simp [DepManager.empty], by simp [DepManager.empty],
    by simp [DepManager.empty], by simp [DepManager.empty], ?_⟩
  intro A c h
  simp [DepManager.empty, lookupA] at h

theorem add_dependency_eq {V : Type} [DecidableEq V] (m : DepManager V) (A : V) (deps : List V)
    (h : deps ≠ []) :
    m.add_dependency A deps =
      ((deps.foldl (addDepStep m.finished A)
          (m.in_edges, (lookupA m.out_edge_counts A).getD 0, false)).2.2,
       { out_edge_counts := setA m.out_edge_counts A
           (deps.foldl (addDepStep m.finished A)
             (m.in_edges, (lookupA m.out_edge_counts A).getD 0, false)).2.1,
         in_edges := (deps.foldl (addDepStep m.finished A)
             (m.in_edges, (lookupA m.out_edge_counts A).getD 0, false)).1,
         finished := m.finished }) := by
  simp [DepManager.add_dependency, h]

theorem Inv_add {V : Type} [DecidableEq V] (m : DepManager V) (A : V) (deps : List V)
    (hInv : Inv m) : Inv (m.add_dependency A deps).2 := by
  obtain ⟨i1, i2, i3, i4, i5, i6⟩ := hInv
  by_cases hne : deps = []
  · rw [hne]
    rw [show m.add_dependency A [] = (false, m) from by simp [DepManager.add_dependency]]
    exact ⟨i1, i2, i3, i4, i5, i6⟩
  · rw [add_dependency_eq m A deps hne]
    obtain ⟨c1, c2, c3, c4, c5, c6, c7, c8⟩ :=
      addDep_fold m.finished A deps m.in_edges ((lookupA m.out_edge_counts A).getD 0) false
        i2 i3 i4
    set r := deps.foldl (addDepStep m.finished A)
      (m.in_edges, (lookupA m.out_edge_counts A).getD 0, false) with hr
    refine ⟨keys_nodup_setA _ _ i1, c1, c2, c3, ?_, ?_⟩
    · intro p hp a ha
      rcases c4 p hp a ha with rfl | ⟨q, hq, haq⟩
      · rw [lookupA_setA_self]
        simp
      · by_cases haA : a = A
        · rw [haA, lookupA_setA_self]
          simp
        · rw [lookupA_setA_ne _ _ _ _ haA]
          exact i5 q hq a haq
    · intro B c hBc
      simp only [edgeCount]
      by_cases hBA : B = A
      · subst hBA
        rw [lookupA_setA_self] at hBc
        have hcB : c = r.2.1 := (Option.some.inj hBc).symm
        have hcnt0 : (lookupA m.out_edge_counts B).getD 0
            = m.in_edges.countP (liveP m.finished B) := by
          rcases ho : lookupA m.out_edge_counts B with _ | c0
          · have hB : B ∉ m.out_edge_counts.map Prod.fst := lookupA_none_iff.1 ho
            have hall : ∀ p ∈ m.in_edges, ¬(liveP m.finished B p = true) := by
              intro p hp
              simp only [liveP, decide_eq_true_eq, not_and]
              intro hBp
              exact absurd (lookupA_isSome_iff.1 (i5 p hp B hBp)) hB
            simp [List.countP_eq_zero.2 hall]
          · have h6 := i6 B c0 ho
            simpa [edgeCount] using h6
        have hfinal : r.2.1 = r.1.countP (liveP m.finished B) := by
          rw [hcnt0] at c6
          omega
        rw [hcB, hfinal]
      · rw [lookupA_setA_ne _ _ _ _ hBA] at hBc
        have h6 := i6 B c hBc
        rw [c7 B hBA, h6]
        rfl

theorem notify_finish_none_eq {V : Type} [DecidableEq V] (m : DepManager V) (f : V)
    (h : lookupA m.in_edges f = none) :
    m.notify_finish f = ([], { m with finished := finIns m.finished f }) := by
  simp [DepManager.notify_finish, h]

theorem notify_finish_some_eq {V : Type} [DecidableEq V] (m : DepManager V) (f : V)
    (ds : List V) (h : lookupA m.in_edges f = some ds) :
    m.notify_finish f = ((ds.foldl notifyStep ([], m.out_edge_counts)).1,
      { out_edge_counts := (ds.foldl notifyStep ([], m.out_edge_counts)).2,
        in_edges := removeA m.in_edges f,
        finished := finIns m.finished f }) := by
  simp [DepManager.notify_finish, h]

theorem Inv_notify {V : Type} [DecidableEq V] (m : DepManager V) (f : V)
    (hInv : Inv m) : Inv (m.notify_finish f).2 := by
  obtain ⟨i1, i2, i3, i4, i5, i6⟩ := hInv
  rcases ho : lookupA m.in_edges f with _ | ds
  · rw [notify_finish_none_eq m f ho]
    have hkf : f ∉ m.in_edges.map Prod.fst := lookupA_none_iff.1 ho
    refine ⟨i1, i2, i3, ?_, i5, ?_⟩
    · intro p hp hfin'
      rcases (mem_finIns _ _ _).1 hfin' with h' | h'
      · exact i4 p hp h'
      · exact hkf (h' ▸ List.mem_map.2 ⟨p, hp, rfl⟩)
    · intro B c hBc
      have h6 := i6 B c hBc
      rw [h6]
      show edgeCount m B = _
      simp only [edgeCount]
      apply countP_ext
      intro p hp
      have hpf : p.1 ≠ f := fun he => hkf (he ▸ List.mem_map.2 ⟨p, hp, rfl⟩)
      simp only [liveP]
      rw [decide_eq_decide]
      constructor
      · rintro ⟨hB, hfin⟩
        refine ⟨hB, fun hc => ?_⟩
        rcases (mem_finIns _ _ _).1 hc with h' | h'
        · exact hfin h'
        · exact hpf h'
      · rintro ⟨hB, hfin⟩
        exact ⟨hB, fun hc => hfin ((mem_finIns _ _ _).2 (Or.inl hc))⟩
  · have hmem : (f, ds) ∈ m.in_edges := lookupA_mem ho
    have hffin : f ∉ m.finished := i4 _ hmem
    have hfin' : finIns m.finished f = m.finished ++ [f] := by simp [finIns, hffin]
    rw [notify_finish_some_eq m f ds ho, hfin']
    obtain ⟨l1, l2, hl, -, hk1⟩ := setA_decomp ds ho
    have hk2 : f ∉ l2.map Prod.fst := by
      rw [hl] at i2
      simp only [List.map_append, List.map_cons] at i2
      rcases List.nodup_append.1 i2 with ⟨-, h2, -⟩
      exact (List.nodup_cons.1 h2).1
    have hrem : removeA m.in_edges f = l1 ++ l2 := by
      rw [hl, removeA_append]
      have e1 : removeA l1 f = l1 := removeA_of_key_free hk1
      have e2 : removeA ((f, ds) :: l2) f = l2 := by
        have e3 : removeA l2 f = l2 := removeA_of_key_free hk2
        simp only [removeA, List.filter_cons] at e3 ⊢
        rw [if_neg (by simp)]
        exact e3
      rw [e1, e2]
    have hmemrem : ∀ p ∈ removeA m.in_edges f, p ∈ m.in_edges := fun p hp =>
      (mem_removeA hp).1
    have hside : ∀ (lx : List (V × List V)), (∀ p ∈ lx, p ∈ m.in_edges) →
        f ∉ lx.map Prod.fst →
        ∀ B, lx.countP (liveP (m.finished ++ [f]) B) = lx.countP (liveP m.finished B) := by
      intro lx hsub hkey B
      apply countP_ext
      intro p hp
      have hpf : p.1 ≠ f := fun he => hkey (he ▸ List.mem_map.2 ⟨p, hp, rfl⟩)
      have hpfin : p.1 ∉ m.finished := i4 p (hsub p hp)
      simp only [liveP]
      rw [decide_eq_decide]
      constructor
      · rintro ⟨hB, -⟩
        exact ⟨hB, hpfin⟩
      · rintro ⟨hB, -⟩
        refine ⟨hB, ?_⟩
        simp only [List.mem_append, List.mem_singleton]
        rintro (hc | hc)
        · exact hpfin hc
        · exact hpf hc
    have hsub1 : ∀ p ∈ l1, p ∈ m.in_edges := by
      intro p hp
      rw [hl]
      exact List.mem_append.2 (Or.inl hp)
    have hsub2 : ∀ p ∈ l2, p ∈ m.in_edges := by
      intro p hp
      rw [hl]
      simp [hp]
    have hdelta : ∀ B, m.in_edges.countP (liveP m.finished B)
        = (l1 ++ l2).countP (liveP (m.finished ++ [f]) B)
          + (if B ∈ ds then 1 else 0) := by
      intro B
      conv_lhs => rw [hl]
      simp only [List.countP_append, List.countP_cons]
      rw [hside l1 hsub1 hk1 B, hside l2 hsub2 hk2 B]
      have hmid : liveP m.finished B (f, ds) = decide (B ∈ ds) := by
        simp [liveP, hffin]
      rw [hmid]
      by_cases hBds : B ∈ ds
      · simp [hBds]
        omega
      · simp [hBds]
    obtain ⟨r1, r2, r3⟩ := notify_fold
      (fun B => (l1 ++ l2).countP (liveP (m.finished ++ [f]) B))
      ds m.out_edge_counts [] (i3 _ hmem) i1 (fun a ha => i5 _ hmem a ha)
      (fun B c hBc => by rw [i6 B c hBc]; exact hdelta B)
    refine ⟨r1, keys_nodup_removeA _ i2, fun p hp => i3 p (hmemrem p hp), ?_, ?_, ?_⟩
    · intro p hp hcontra
      rcases List.mem_append.1 hcontra with h' | h'
      · exact i4 p (hmemrem p hp) h'
      · exact (mem_removeA hp).2 (by simpa using h')
    · intro p hp a ha
      by_contra hnone
      rw [Option.not_isSome_iff_eq_none] at hnone
      rcases r3 a hnone with h' | h'
      · exact absurd (i5 p (hmemrem p hp) a ha) (by simp [h'])
      · have hpos : 0 < (l1 ++ l2).countP (liveP (m.finished ++ [f]) a) := by
          rw [List.countP_pos_iff]
          refine ⟨p, hrem ▸ hp, ?_⟩
          simp only [liveP, decide_eq_true_eq]
          refine ⟨ha, ?_⟩
          intro hc
          rcases List.mem_append.1 hc with hc' | hc'
          · exact i4 p (hmemrem p hp) hc'
          · exact (mem_removeA hp).2 (by simpa using hc')
        omega
    · intro B c hBc
      rw [r2 B c hBc]
      simp only [edgeCount]
      rw [hrem]

/-- `Inv` holds for every reachable state of the dependency graph. -/
theorem Inv_of_reaches {V : Type} [DecidableEq V] (m : DepManager V) (h : Reaches m) :
    Inv m := by
  induction h with
  | empty => exact Inv_empty
  | add m A deps _ ih => exact Inv_add m A deps ih
  | finish m f _ ih => exact Inv_notify m f ih

/-- Claim C4 (confirmed): starting from the empty dependency graph, after
any sequence of `add_dependency` and `notify_finish` operations, every
depender `A` recorded in the out-edge count map satisfies:
`out_count[A]` equals the number of vertices `B` such that the edge
`(A, B)` is present in `in_edges` and `B` has not been marked finished. -/
theorem c4_out_count_invariant {V : Type} [DecidableEq V] (m : DepManager V)
    (h : Reaches m) (A : V) (c : Nat)
    (hc : lookupA m.out_edge_counts A = some c) : c = edgeCount m A :=
  (Inv_of_reaches m h).2.2.2.2.2 A c hc

/-- Witness for C4 at a concrete reachable state: after adding the edge
`(1, 2)` to the empty graph, `out_count[1] = 1` and there is exactly one
live out-edge of `1`. -/
theorem c4_out_count_invariant_witness :
    lookupA (((DepManager.empty Nat).add_dependency 1 [2]).2).out_edge_counts 1 = some 1 ∧
    1 = edgeCount (((DepManager.empty Nat).add_dependency 1 [2]).2) 1 :=
  ⟨by decide,
    c4_out_count_invariant (((DepManager.empty Nat).add_dependency 1 [2]).2)
      (Reaches.add (DepManager.empty Nat) 1 [2] Reaches.empty) 1 1 (by decide)⟩

/-- Claim C1 (counterexample): the claim states that `add_dependency`
returns true iff at least one new live edge was actually inserted. After
the edge `(1, 2)` is already present, a second identical call inserts
nothing — the graph is returned unchanged — yet it still returns true. -/
theorem c1_add_dependency_counterexample :
    ((((DepManager.empty Nat).add_dependency 1 [2]).2).add_dependency 1 [2]).1 = true ∧
    ((((DepManager.empty Nat).add_dependency 1 [2]).2).add_dependency 1 [2]).2
      = ((DepManager.empty Nat).add_dependency 1 [2]).2 := by
  decide

/-- Claim C1 (amended): for every reachable state of the dependency graph,
if `deps` is empty the call returns false and performs no mutation;
otherwise it returns true iff at least one element of `deps` is not yet
finished — even when every corresponding edge was already present and
nothing new was inserted. The finished set is unchanged, each dependers
list gains `A` exactly when `A` depends on that vertex, the dependency is
not finished and the edge was absent — so an edge already present is not
duplicated — and dependers lists stay duplicate-free. -/
theorem c1_add_dependency_amended {V : Type} [DecidableEq V] (m : DepManager V)
    (hm : Reaches m) (A : V) (deps : List V) :
    (deps = [] → m.add_dependency A deps = (false, m)) ∧
    (deps ≠ [] → ((m.add_dependency A deps).1 = true ↔ ∃ b ∈ deps, b ∉ m.finished)) ∧
    ((m.add_dependency A deps).2.finished = m.finished) ∧
    (∀ b, (lookupA (m.add_dependency A deps).2.in_edges b).getD []
        = if b ∈ deps ∧ b ∉ m.finished ∧ A ∉ (lookupA m.in_edges b).getD []
          then (lookupA m.in_edges b).getD [] ++ [A]
          else (lookupA m.in_edges b).getD []) ∧
    (∀ p ∈ (m.add_dependency A deps).2.in_edges, (p.2 : List V).Nodup) := by
  obtain ⟨-, i2, i3, i4, -, -⟩ := Inv_of_reaches m hm
  by_cases hne : deps = []
  · subst hne
    rw [show m.add_dependency A [] = (false, m) from by simp [DepManager.add_dependency]]
    exact ⟨fun _ => rfl, fun h => absurd rfl h, rfl, fun b => by simp, i3⟩
  · obtain ⟨c1, c2, c3, c4, c5, c6, c7, c8⟩ :=
      addDep_fold m.finished A deps m.in_edges ((lookupA m.out_edge_counts A).getD 0) false
        i2 i3 i4
    rw [add_dependency_eq m A deps hne]
    refine ⟨fun h => absurd h hne, fun _ => ?_, rfl, c8, c2⟩
    rw [c5]
    simp [List.any_eq_true]

/-- Witness for the amended C1: adding the dependency list `[2]` for
depender `1` on the empty graph returns true since `2` is not finished. -/
theorem c1_add_dependency_amended_witness :
    ((DepManager.empty Nat).add_dependency 1 [2]).1 = true :=
  ((c1_add_dependency_amended (DepManager.empty Nat) Reaches.empty 1 [2]).2.1
    (by decide)).2 ⟨2, by decide, by decide⟩

/-- Claim C5 (confirmed): in Verify mode, construction fails with a
VerifyOutput error unless the output file exists and records `rem` as the
output file's byte length; on a state satisfying the construction
invariant `pos + rem = |content|`, `write_output s` fails with a
VerifyOutput error when `rem < |s|`, otherwise reads exactly `|s|` bytes,
fails with a VerifyOutput error unless they equal `s` byte-for-byte, and
on success advances the read position by `|s|` and decrements `rem` by
`|s|` (preserving the invariant); `done` fails with a VerifyOutput error
unless `rem` is zero. -/
theorem c5_verify_mode_semantics (outputExists : Bool) (content : List Nat)
    (v : VerifyOut) (out : List Nat) (hv : v.pos + v.rem = v.content.length) :
    ((outputExists = false → ctxOutNewVerify outputExists content = .error .VerifyOutput) ∧
     (outputExists = true → ctxOutNewVerify outputExists content
        = .ok { content := content, pos := 0, rem := content.length })) ∧
    ((v.rem < out.length → verifyWriteOutput v out = .error .VerifyOutput) ∧
     (out.length ≤ v.rem →
        ((v.content.drop v.pos).take out.length = out →
          verifyWriteOutput v out
            = .ok { content := v.content, pos := v.pos + out.length,
                    rem := v.rem - out.length }) ∧
        ((v.content.drop v.pos).take out.length ≠ out →
          verifyWriteOutput v out = .error .VerifyOutput))) ∧
    (∀ v', verifyWriteOutput v out = .ok v' → v'.pos + v'.rem = v'.content.length) ∧
    ((v.rem ≠ 0 → verifyDone v = .error .VerifyOutput) ∧
     (v.rem = 0 → verifyDone v = .ok ())) := by
  refine ⟨⟨fun he => by simp [ctxOutNewVerify, he], fun he => by simp [ctxOutNewVerify, he]⟩,
    ⟨fun hlt => by simp [verifyWriteOutput, hlt], fun hle => ⟨fun heq => ?_, fun hne => ?_⟩⟩,
    fun v' hok => ?_, fun he => by simp [verifyDone, he], fun he => by simp [verifyDone, he]⟩
  · have h1 : ¬(v.rem < out.length) := by omega
    have h2 : ¬(v.content.length < v.pos + out.length) := by omega
    simp [verifyWriteOutput, h1, h2, heq]
  · have h1 : ¬(v.rem < out.length) := by omega
    have h2 : ¬(v.content.length < v.pos + out.length) := by omega
    simp [verifyWriteOutput, h1, h2, hne]
  · unfold verifyWriteOutput at hok
    by_cases h1 : v.rem < out.length
    · simp [h1] at hok
    · by_cases h2 : v.content.length < v.pos + out.length
      · simp [h1, h2] at hok
      · by_cases h3 : (v.content.drop v.pos).take out.length ≠ out
        · simp [h1, h2, h3] at hok
        · simp [h1, h2, h3] at hok
          rw [← hok]
          simp
          omega

/-- Witness for C5 on the two-byte output file `[104, 105]`: verifying the
chunk `[104]` succeeds and leaves one unverified byte. -/
theorem c5_verify_mode_semantics_witness :
    verifyWriteOutput { content := [104, 105], pos := 0, rem := 2 } [104]
      = .ok { content := [104, 105], pos := 1, rem := 1 } :=
  ((c5_verify_mode_semantics true [104, 105]
      { content := [104, 105], pos := 0, rem := 2 } [104] (by decide)).2.1.2
    (by decide)).1 (by decide)

/-! ## Path extension helpers (src/src/fs/path/mod.rs)

`Path::extension`/`file_stem`/`set_extension` act only on the file name
(the last path component), so paths are modelled by their file name as a
`Str`. A file name is never empty, `"."` or `".."`, but the functions are
defined totally, following the Rust code of `rsplit_file_at_dot`. -/

theorem takeWhile_append_of_all {α : Type} (p : α → Bool) (l1 : List α) (a : α) (l2 : List α)
    (h1 : ∀ x ∈ l1, p x = true) (ha : p a = false) :
    (l1 ++ a :: l2).takeWhile p = l1 ∧ (l1 ++ a :: l2).dropWhile p = a :: l2 := by
  induction l1 with
  | nil => simp [List.takeWhile_cons, List.dropWhile_cons, ha]
  | cons x xs ih =>
    have hx : p x = true := h1 x (List.mem_cons_self x xs)
    have hrest := ih fun y hy => h1 y (List.mem_cons_of_mem x hy)
    simp [List.takeWhile_cons, List.dropWhile_cons, hx, hrest.1, hrest.2]

theorem dropWhile_head_false {α : Type} (p : α → Bool) (l : List α) (a : α) (t : List α)
    (h : l.dropWhile p = a :: t) : p a = false := by
  induction l with
  | nil => simp [List.dropWhile] at h
  | cons x xs ih =>
    rw [List.dropWhile_cons] at h
    by_cases hx : p x = true
    · rw [if_pos hx] at h
      exact ih h
    · rw [if_neg hx] at h
      cases h
      simpa using hx

theorem splitAtLastDot_eq_some_iff {f b a : Str} :
    splitAtLastDot f = some (b, a) ↔ (f = b ++ '.' :: a ∧ '.' ∉ a) := by
  constructor
  · intro h
    unfold splitAtLastDot at h
    rcases hd : f.reverse.dropWhile (fun c => decide (c ≠ '.')) with _ | ⟨x, tail⟩
    · rw [hd] at h
      simp at h
    · rw [hd] at h
      simp only [Option.some.injEq, Prod.mk.injEq] at h
      obtain ⟨hb, ha⟩ := h
      have hx : x = '.' := by
        have := dropWhile_head_false _ _ _ _ hd
        simpa using this
      have hsplit := List.takeWhile_append_dropWhile
        (p := fun c => decide (c ≠ '.')) (l := f.reverse)
      rw [hd, hx] at hsplit
      constructor
      · rw [show f = f.reverse.reverse from (List.reverse_reverse f).symm, ← hsplit]
        rw [List.reverse_append, List.reverse_cons, ← hb, ← ha]
        simp
      · intro hc
        rw [← ha, List.mem_reverse] at hc
        have := List.mem_takeWhile_imp hc
        simp at this
  · rintro ⟨rfl, hna⟩
    unfold splitAtLastDot
    have hrev : (b ++ '.' :: a).reverse = a.reverse ++ '.' :: b.reverse := by
      rw [List.reverse_append, List.reverse_cons]
      simp
    rw [hrev]
    obtain ⟨ht, hdrp⟩ := takeWhile_append_of_all (fun c => decide (c ≠ '.'))
      a.reverse '.' b.reverse
      (fun x hx => by
        simp only [decide_eq_true_eq]
        intro hxe
        exact hna (hxe ▸ List.mem_reverse.1 hx))
      (by simp)
    rw [ht, hdrp]
    simp

theorem splitAtLastDot_eq_none_iff {f : Str} :
    splitAtLastDot f = none ↔ '.' ∉ f := by
  constructor
  · intro h hc
    unfold splitAtLastDot at h
    rcases hd : f.reverse.dropWhile (fun c => decide (c ≠ '.')) with _ | ⟨x, tail⟩
    · rw [List.dropWhile_eq_nil_iff] at hd
      have := hd '.' (List.mem_reverse.2 hc)
      simp at this
    · rw [hd] at h
      simp at h
  · intro hnc
    unfold splitAtLastDot
    have hd : f.reverse.dropWhile (fun c => decide (c ≠ '.')) = [] := by
      rw [List.dropWhile_eq_nil_iff]
      intro x hx
      simp only [decide_eq_true_eq]
      intro hxe
      exact hnc (hxe ▸ List.mem_reverse.1 hx)
    rw [hd]

theorem extension_eq_some_iff {f e : Str} :
    extension f = some e
      ↔ (f ≠ str ".." ∧ ∃ b, b ≠ [] ∧ f = b ++ '.' :: e ∧ '.' ∉ e) := by
  unfold extension rsplitFileAtDot
  by_cases hdd : f = str ".."
  · simp [hdd]
  · rw [if_neg hdd]
    rcases hs : splitAtLastDot f with _ | ⟨b0, a0⟩
    · simp only [ne_eq, hdd, not_false_eq_true, true_and]
      constructor
      · intro h
        simp at h
      · rintro ⟨b, hb, rfl, hna⟩
        rw [splitAtLastDot_eq_none_iff] at hs
        exact absurd (List.mem_append.2 (Or.inr (List.mem_cons_self _ _))) hs
    · obtain ⟨hf, hna0⟩ := splitAtLastDot_eq_some_iff.1 hs
      dsimp only
      by_cases hb0 : b0 = []
      · rw [if_pos hb0]
        simp only [ne_eq, hdd, not_false_eq_true, true_and]
        constructor
        · intro h
          simp at h
        · rintro ⟨b, hb, hfb, hna⟩
          have := splitAtLastDot_eq_some_iff.2 ⟨hfb, hna⟩
          rw [hs] at this
          simp only [Option.some.injEq, Prod.mk.injEq] at this
          exact (hb (by rw [this.1] at hb0; exact hb0)).elim
      · rw [if_neg hb0]
        simp only [Option.some.injEq, ne_eq, hdd, not_false_eq_true, true_and]
        constructor
        · rintro rfl
          exact ⟨b0, hb0, hf, hna0⟩
        · rintro ⟨b, hb, hfb, hna⟩
          have := splitAtLastDot_eq_some_iff.2 ⟨hfb, hna⟩
          rw [hs] at this
          simp only [Option.some.injEq, Prod.mk.injEq] at this
          exact this.2

/-- Claim C9 (code bug): the claim says `name.txtpp.ext` maps to
`name.ext` with the other extension segment preserved — and the source
documents `remove_txtpp` as the reverse of `get_txtpp_file`, which builds
`x.y.txtpp.bar` as the template candidate for `x.y.bar`
(src/src/fs/path/mod.rs:82-86). But `set_extension` replaces the stem's
own last extension, so `remove_txtpp` sends `x.y.txtpp.bar` to `x.bar`,
dropping the `y` segment. -/
theorem c9_remove_txtpp_failing_input :
    remove_txtpp (str "x.y.txtpp.bar") = .ok (str "x.bar") ∧
    setExtension (str "x.y.bar") (str "txtpp.bar") = str "x.y.txtpp.bar" ∧
    str "x.bar" ≠ str "x.y.bar" :=
  ⟨rfl, rfl, by decide⟩

theorem fileStem_of_append {b a : Str} (hb : b ≠ []) (ha : '.' ∉ a)
    (hdd : b ++ '.' :: a ≠ str "..") : fileStem (b ++ '.' :: a) = some b := by
  unfold fileStem rsplitFileAtDot
  rw [if_neg hdd, splitAtLastDot_eq_some_iff.2 ⟨rfl, ha⟩]
  simp [hb]

theorem setExtension_of_append {b a : Str} (hb : b ≠ []) (ha : '.' ∉ a)
    (hdd : b ++ '.' :: a ≠ str "..") (e : Str) :
    setExtension (b ++ '.' :: a) e = (if e = [] then b else b ++ '.' :: e) := by
  unfold setExtension
  rw [fileStem_of_append hb ha hdd]

theorem inject_loop (output le : Str) :
    ∀ (l : List (Nat × Str × Str)) (s0 : Str) (e0 : Nat) (r0 : List Str),
    l.foldl (injectStep output le) (s0, e0, r0)
      = (s0 ++ spliceCore output le e0 (selectGreedy e0 l),
         selEnd e0 l,
         r0 ++ (selectGreedy e0 l).map (fun x => x.2.1)) := by
  intro l
  induction l with
  | nil =>
    intro s0 e0 r0
    simp [selectGreedy, spliceCore, selEnd]
  | cons x xs ih =>
    intro s0 e0 r0
    rw [List.foldl_cons]
    by_cases h : x.1 < e0
    · rw [show injectStep output le (s0, e0, r0) x = (s0, e0, r0) from by
        simp [injectStep, h]]
      rw [ih s0 e0 r0]
      simp [selectGreedy, selEnd, h]
    · rw [show injectStep output le (s0, e0, r0) x
          = (s0 ++ ((output.take x.1).drop e0) ++ replace_line_ending x.2.2 le false,
             x.1 + x.2.1.length, r0 ++ [x.2.1]) from by
        simp [injectStep, h]]
      rw [ih]
      simp only [selectGreedy, selEnd, if_neg h, spliceCore, List.map_cons]
      simp [List.append_assoc]

theorem splice_eq_core (output le : Str) :
    ∀ (L : List (Nat × Str × Str)) (e : Nat),
    splice output le e L = spliceCore output le e L ++ output.drop (spliceEnd e L) := by
  intro L
  induction L with
  | nil => intro e; simp [splice, spliceCore, spliceEnd]
  | cons x xs ih =>
    intro e
    simp only [splice, spliceCore, spliceEnd, ih, List.append_assoc]

theorem selEnd_eq_spliceEnd (l : List (Nat × Str × Str)) :
    ∀ e, selEnd e l = spliceEnd e (selectGreedy e l) := by
  induction l with
  | nil => intro e; rfl
  | cons x xs ih =>
    intro e
    by_cases h : x.1 < e
    · simp [selEnd, selectGreedy, h, spliceEnd, ih]
    · simp [selEnd, selectGreedy, h, spliceEnd, ih]

theorem foldl_removeA_eq_filter {β : Type} :
    ∀ (ks : List Str) (m : List (Str × β)),
    ks.foldl (fun m k => removeA m k) m = m.filter (fun kv => decide (kv.1 ∉ ks)) := by
  intro ks
  induction ks with
  | nil =>
    intro m
    simp
  | cons k ks ih =>
    intro m
    rw [List.foldl_cons, ih (removeA m k)]
    rw [removeA, List.filter_filter]
    apply List.filter_congr
    intro kv _
    by_cases h1 : kv.1 = k <;> by_cases h2 : kv.1 ∈ ks <;> simp [h1, h2]

theorem selectGreedy_sublist (l : List (Nat × Str × Str)) :
    ∀ e, (selectGreedy e l).Sublist l := by
  induction l with
  | nil => intro e; simp [selectGreedy]
  | cons x xs ih =>
    intro e
    by_cases h : x.1 < e
    · simp only [selectGreedy, if_pos h]
      exact (ih e).cons x
    · simp only [selectGreedy, if_neg h]
      exact (ih _).cons₂ x

theorem selectGreedy_ge (l : List (Nat × Str × Str)) :
    ∀ e, ∀ x ∈ selectGreedy e l, e ≤ x.1 := by
  induction l with
  | nil => intro e x hx; simp [selectGreedy] at hx
  | cons y ys ih =>
    intro e x hx
    by_cases h : y.1 < e
    · rw [selectGreedy, if_pos h] at hx
      exact ih e x hx
    · rw [selectGreedy, if_neg h] at hx
      rcases List.mem_cons.1 hx with rfl | hx'
      · omega
      · have := ih (y.1 + y.2.1.length) x hx'
        omega

theorem selectGreedy_pairwise (l : List (Nat × Str × Str)) :
    ∀ e, List.Pairwise (fun a b => a.1 + a.2.1.length ≤ b.1) (selectGreedy e l) := by
  induction l with
  | nil => intro e; simp [selectGreedy]
  | cons y ys ih =>
    intro e
    by_cases h : y.1 < e
    · rw [selectGreedy, if_pos h]
      exact ih e
    · rw [selectGreedy, if_neg h]
      exact List.Pairwise.cons (fun x hx => selectGreedy_ge ys _ x hx) (ih _)

theorem insertIdx_perm (e : Nat × Str × Str) (l : List (Nat × Str × Str)) :
    List.Perm (insertIdx e l) (e :: l) := by
  induction l with
  | nil => exact List.Perm.refl _
  | cons x xs ih =>
    by_cases h : x.1 < e.1
    · rw [insertIdx, if_pos h]
      exact (List.Perm.cons x ih).trans (List.Perm.swap e x xs)
    · rw [insertIdx, if_neg h]

theorem sortByIdx_perm (l : List (Nat × Str × Str)) : List.Perm (sortByIdx l) l := by
  induction l with
  | nil => exact List.Perm.refl _
  | cons x xs ih => exact (insertIdx_perm x (sortByIdx xs)).trans (List.Perm.cons x ih)

theorem injectCandidates_keys_sublist (output : Str) (stored : List (Str × Str)) :
    ((injectCandidates stored output).map (fun x => x.2.1)).Sublist
      (stored.map Prod.fst) := by
  induction stored with
  | nil => simp [injectCandidates]
  | cons kv rest ih =>
    rw [injectCandidates, List.filterMap_cons]
    rcases findSubstr output kv.1 with _ | i
    · simp only [Option.map_none']
      exact List.Sublist.cons _ (by simpa [injectCandidates] using ih)
    · simp only [Option.map_some']
      rw [List.map_cons]
      exact List.Sublist.cons₂ _ (by simpa [injectCandidates] using ih)

theorem findSubstr_eq_some_iff : ∀ (h p : Str) (i : Nat),
    findSubstr h p = some i ↔ (p.isPrefixOf (List.drop i h) = true ∧
      ∀ j < i, p.isPrefixOf (List.drop j h) = false) := by
  intro h
  induction h with
  | nil =>
    intro p i
    rw [findSubstr]
    by_cases hp : p.isPrefixOf [] = true
    · rw [if_pos hp]
      constructor
      · intro he
        have hi : i = 0 := (Option.some.inj he).symm
        subst hi
        exact ⟨by simpa using hp, fun j hj => absurd hj (by omega)⟩
      · rintro ⟨h1, h2⟩
        rcases i with _ | i'
        · rfl
        · have hfalse := h2 0 (Nat.succ_pos _)
          rw [List.drop_zero] at hfalse
          rw [hfalse] at hp
          exact absurd hp (by simp)
    · rw [if_neg hp]
      constructor
      · intro he
        simp at he
      · rintro ⟨h1, -⟩
        rw [List.drop_nil] at h1
        exact absurd h1 hp
  | cons c t ih =>
    intro p i
    rw [findSubstr]
    by_cases hp : p.isPrefixOf (c :: t) = true
    · rw [if_pos hp]
      constructor
      · intro he
        have hi : i = 0 := (Option.some.inj he).symm
        subst hi
        exact ⟨by simpa using hp, fun j hj => absurd hj (by omega)⟩
      · rintro ⟨h1, h2⟩
        rcases i with _ | i'
        · rfl
        · have hfalse := h2 0 (Nat.succ_pos _)
          rw [List.drop_zero] at hfalse
          rw [hfalse] at hp
          exact absurd hp (by simp)
    · rw [if_neg hp]
      have hpf : p.isPrefixOf (c :: t) = false := by
        rcases hb : p.isPrefixOf (c :: t) with _ | _
        · rfl
        · exact absurd hb hp
      constructor
      · intro he
        rw [Option.map_eq_some'] at he
        obtain ⟨i', hi', hii⟩ := he
        subst hii
        obtain ⟨h1, h2⟩ := (ih p i').1 hi'
        refine ⟨by simpa using h1, ?_⟩
        intro j hj
        rcases j with _ | j'
        · simpa using hpf
        · simpa using h2 j' (by omega)
      · rintro ⟨h1, h2⟩
        rcases i with _ | i'
        · rw [List.drop_zero] at h1
          exact absurd h1 hp
        · have := (ih p i').2 ⟨by simpa using h1,
            fun j hj => by simpa using h2 (j + 1) (by omega)⟩
          rw [this]
          rfl

/-- Claim C6 (confirmed as amended below): `inject_tags` replaces the
non-overlapping set of first occurrences of stored tag names selected by
earliest start index — each tag substituted at most once, at its first
occurrence, so later occurrences of the same name are not substituted —
with the captured content rewritten to the given line ending and no
trailing newline added; every replaced tag is removed from the store, the
listening slot is untouched, and exactly one line ending is appended,
also when nothing was replaced. The `HashMap` iteration order is modelled
by the store's list order and the store's keys are duplicate-free, as a
`HashMap`'s are. -/
theorem c6_inject_tags_spec (st : TagState) (output le : Str)
    (hnd : (st.stored.map Prod.fst).Nodup) :
    ((st.inject_tags output le).1
        = splice output le 0 (injectSelection st.stored output) ++ le) ∧
    ((st.inject_tags output le).2.listening = st.listening) ∧
    ((st.inject_tags output le).2.stored
        = st.stored.filter (fun kv =>
            decide (kv.1 ∉ (injectSelection st.stored output).map (fun x => x.2.1)))) ∧
    (∀ x ∈ injectSelection st.stored output,
        (x.2.1, x.2.2) ∈ st.stored ∧
        x.2.1.isPrefixOf (output.drop x.1) = true ∧
        (∀ j < x.1, x.2.1.isPrefixOf (output.drop j) = false)) ∧
    (((injectSelection st.stored output).map (fun x => x.2.1)).Nodup) ∧
    (List.Pairwise (fun a b => a.1 + a.2.1.length ≤ b.1)
        (injectSelection st.stored output)) ∧
    ((∀ kv ∈ st.stored, findSubstr output kv.1 = none) →
        (st.inject_tags output le).1 = output ++ le) := by
  have hloop := inject_loop output le
    (sortByIdx (injectCandidates st.stored output)) [] 0 []
  have heq1 : (st.inject_tags output le).1
      = spliceCore output le 0 (injectSelection st.stored output)
        ++ output.drop (selEnd 0 (sortByIdx (injectCandidates st.stored output))) ++ le := by
    simp only [TagState.inject_tags, injectCandidates] at hloop ⊢
    rw [hloop]
    simp [injectSelection, injectCandidates]
  have heq2 : (st.inject_tags output le).2
      = { st with stored :=
          (List.foldl (fun m k => removeA m k) st.stored
            ((injectSelection st.stored output).map (fun x => x.2.1))) } := by
    simp only [TagState.inject_tags, injectCandidates] at hloop ⊢
    rw [hloop]
    simp [injectSelection, injectCandidates]
  have hone : (st.inject_tags output le).1
      = splice output le 0 (injectSelection st.stored output) ++ le := by
    rw [heq1, splice_eq_core, injectSelection,
      ← selEnd_eq_spliceEnd (sortByIdx (injectCandidates st.stored output)) 0]
  have hmemsel : ∀ x ∈ injectSelection st.stored output,
      x ∈ injectCandidates st.stored output := by
    intro x hx
    have h1 : x ∈ sortByIdx (injectCandidates st.stored output) :=
      (selectGreedy_sublist _ 0).mem hx
    exact (sortByIdx_perm _).mem_iff.1 h1
  refine ⟨hone, ?_, ?_, ?_, ?_, selectGreedy_pairwise _ 0, ?_⟩
  · rw [heq2]
  · rw [heq2, foldl_removeA_eq_filter]
  · intro x hx
    obtain ⟨kv, hkv, hfm⟩ := List.mem_filterMap.1 (hmemsel x hx)
    rw [Option.map_eq_some'] at hfm
    obtain ⟨i, hfind, hix⟩ := hfm
    obtain ⟨hpre, hmin⟩ := (findSubstr_eq_some_iff output kv.1 i).1 hfind
    rw [← hix]
    exact ⟨by simpa using hkv, hpre, hmin⟩
  · have hsub : ((injectSelection st.stored output).map (fun x => x.2.1)).Sublist
        ((sortByIdx (injectCandidates st.stored output)).map (fun x => x.2.1)) :=
      List.Sublist.map _ (selectGreedy_sublist _ 0)
    have hperm : ((sortByIdx (injectCandidates st.stored output)).map
        (fun x => x.2.1)).Perm ((injectCandidates st.stored output).map (fun x => x.2.1)) :=
      (sortByIdx_perm _).map _
    have hnd2 : ((injectCandidates st.stored output).map (fun x => x.2.1)).Nodup :=
      List.Nodup.sublist (injectCandidates_keys_sublist output st.stored) hnd
    exact List.Nodup.sublist hsub (hperm.nodup_iff.2 hnd2)
  · intro hnone
    have hcand : injectCandidates st.stored output = [] := by
      rw [injectCandidates, List.filterMap_eq_nil_iff]
      intro kv hkv
      rw [hnone kv hkv]
      rfl
    rw [hone, injectSelection, hcand]
    simp [sortByIdx, selectGreedy, splice]

/-- Witness for C6: with the single stored tag `t` captured as `X`,
injecting into `atb` yields `aXb` followed by one line ending, and the
tag is removed. -/
theorem c6_inject_tags_spec_witness :
    (({ listening := none, stored := [(str "t", str "X")] } : TagState).inject_tags
        (str "atb") (str "\n")).1 = str "aXb\n" :=
  ((c6_inject_tags_spec { listening := none, stored := [(str "t", str "X")] }
      (str "atb") (str "\n") (by decide)).1).trans (by decide)

/-- Claim C10 (confirmed): `TagState::create` is atomic on failure — on
any error (a listening tag, or a stored name equal to, a prefix of, or
extending the new name) the state is returned unchanged, and on success
the only change is that the listening slot becomes the new name; an error
occurs exactly under those conditions. -/
theorem c10_tag_create_atomic (st : TagState) (tag : Str) :
    (∀ e, (st.create tag).2 = .error e → (st.create tag).1 = st) ∧
    ((st.create tag).2 = .ok () →
      (st.create tag).1 = { listening := some tag, stored := st.stored }) ∧
    ((∃ e, (st.create tag).2 = .error e) ↔
      (st.listening ≠ none ∨
        ∃ p ∈ st.stored, tag.isPrefixOf p.1 ∨ p.1.isPrefixOf tag)) := by
  rcases hl : st.listening with _ | oldTag
  · rcases hf : st.stored.find? (fun p => tag.isPrefixOf p.1 || p.1.isPrefixOf tag)
      with _ | p
    · simp only [TagState.create, hl, hf]
      refine ⟨fun e he => by simp at he, fun _ => trivial, ?_⟩
      constructor
      · rintro ⟨e, he⟩
        simp at he
      · rintro (hcon | ⟨p, hp, hpre⟩)
        · exact absurd rfl hcon
        · have hnone := List.find?_eq_none.1 hf p hp
          simp only [Bool.or_eq_true, not_or] at hnone
          rcases hpre with hpre | hpre
          · exact absurd hpre hnone.1
          · exact absurd hpre hnone.2
    · have hmem : p ∈ st.stored := List.mem_of_find?_eq_some hf
      have hpred := List.find?_some hf
      simp only [Bool.or_eq_true] at hpred
      by_cases hpt : p.1 = tag
      · simp only [TagState.create, hl, hf, if_pos hpt]
        refine ⟨fun e _ => trivial, fun hok => by simp at hok, ?_⟩
        refine ⟨fun _ => Or.inr ⟨p, hmem, Or.inl ?_⟩, fun _ => ⟨.sameName, rfl⟩⟩
        rw [hpt, List.isPrefixOf_iff_prefix]
      · simp only [TagState.create, hl, hf, if_neg hpt]
        refine ⟨fun e _ => trivial, fun hok => by simp at hok, ?_⟩
        exact ⟨fun _ => Or.inr ⟨p, hmem, hpred⟩, fun _ => ⟨.ambiguous, rfl⟩⟩
  · simp only [TagState.create, hl]
    exact ⟨fun e _ => trivial, fun hok => by simp at hok,
      ⟨fun _ => Or.inl (by simp [hl]), fun _ => ⟨.stillListening, rfl⟩⟩⟩

/-- Witness for C10: creating the tag `"tag"` while `"tag1"` is stored
fails by prefix ambiguity and leaves the state unchanged. -/
theorem c10_tag_create_atomic_witness :
    (({ listening := none, stored := [(str "tag1", str "c")] } : TagState).create
        (str "tag")).1
      = { listening := none, stored := [(str "tag1", str "c")] } :=
  (c10_tag_create_atomic { listening := none, stored := [(str "tag1", str "c")] }
    (str "tag")).1 .ambiguous (by rfl)

/-- Claim C7 (confirmed): a candidate line `L` extends an in-progress
directive `D` iff `D`'s kind permits continuations and `L` begins with
`D.whitespaces` and, after stripping that prefix, the remainder either
equals `D.prefix` with trailing whitespace removed (appending an empty
argument), or begins with `D.prefix` (appending the right-trimmed text
after it), or begins with a run of spaces of length `|D.prefix|`
(appending the right-trimmed text after those spaces); Include and Tag
directives reject every line. -/
theorem c7_add_line_spec (d : Directive) (l : Str) :
    ((d.add_line l).isSome ↔
      (d.directive_type.supports_multi_line = true ∧
        ∃ r, l = d.whitespaces ++ r ∧
          (r = trimEndWs d.pfx ∨ (∃ t, r = d.pfx ++ t) ∨
           (∃ t, r = List.replicate d.pfx.length ' ' ++ t)))) ∧
    (∀ r, d.directive_type.supports_multi_line = true → l = d.whitespaces ++ r →
      r = trimEndWs d.pfx → d.add_line l = some { d with args := d.args ++ [[]] }) ∧
    (∀ r t, d.directive_type.supports_multi_line = true → l = d.whitespaces ++ r →
      r ≠ trimEndWs d.pfx →
      (r = d.pfx ++ t ∨ r = List.replicate d.pfx.length ' ' ++ t) →
      d.add_line l = some { d with args := d.args ++ [trimEndWs t] }) ∧
    ((d.directive_type = .Include ∨ d.directive_type = .Tag) →
      d.add_line l = none) := by
  refine ⟨?_, ?_, ?_, ?_⟩
  · constructor
    · intro hs
      unfold Directive.add_line at hs
      by_cases hml : d.directive_type.supports_multi_line
      · refine ⟨hml, ?_⟩
        rw [hml] at hs
        simp only [Bool.not_true, Bool.false_eq_true, if_false] at hs
        by_cases hws : d.whitespaces.isPrefixOf l
        · rw [if_pos hws] at hs
          obtain ⟨r, hr⟩ := List.isPrefixOf_iff_prefix.1 hws
          refine ⟨r, hr.symm, ?_⟩
          have hdrop : l.drop d.whitespaces.length = r := by
            rw [← hr, List.drop_left]
          rw [hdrop] at hs
          by_cases h1 : r = trimEndWs d.pfx
          · exact Or.inl h1
          · rw [if_neg h1] at hs
            by_cases h2 : d.pfx.isPrefixOf r || (List.replicate d.pfx.length ' ').isPrefixOf r
            · rw [Bool.or_eq_true] at h2
              rcases h2 with h3 | h3
              · obtain ⟨t, ht⟩ := List.isPrefixOf_iff_prefix.1 h3
                exact Or.inr (Or.inl ⟨t, ht.symm⟩)
              · obtain ⟨t, ht⟩ := List.isPrefixOf_iff_prefix.1 h3
                exact Or.inr (Or.inr ⟨t, ht.symm⟩)
            · rw [if_neg (by simpa using h2)] at hs
              simp at hs
        · rw [if_neg hws] at hs
          simp at hs
      · rw [show d.directive_type.supports_multi_line = false from by
          simpa using hml] at hs
        simp at hs
    · rintro ⟨hml, r, rfl, hcase⟩
      unfold Directive.add_line
      rw [hml]
      simp only [Bool.not_true, Bool.false_eq_true, if_false]
      rw [if_pos (List.isPrefixOf_iff_prefix.2 ⟨r, rfl⟩), List.drop_left]
      rcases hcase with h1 | ⟨t, rfl⟩ | ⟨t, rfl⟩
      · rw [if_pos h1]
        simp
      · by_cases h1 : d.pfx ++ t = trimEndWs d.pfx
        · rw [if_pos h1]
          simp
        · rw [if_neg h1,
            if_pos (by simp [List.isPrefixOf_iff_prefix, List.prefix_append])]
          simp
      · by_cases h1 : List.replicate d.pfx.length ' ' ++ t = trimEndWs d.pfx
        · rw [if_pos h1]
          simp
        · rw [if_neg h1,
            if_pos (by simp [List.isPrefixOf_iff_prefix, List.prefix_append])]
          simp
  · intro r hml hl hr
    subst hl
    unfold Directive.add_line
    rw [hml]
    simp only [Bool.not_true, Bool.false_eq_true, if_false]
    rw [if_pos (List.isPrefixOf_iff_prefix.2 ⟨r, rfl⟩), List.drop_left, if_pos hr]
  · intro r t hml hl hne hcase
    subst hl
    unfold Directive.add_line
    rw [hml]
    simp only [Bool.not_true, Bool.false_eq_true, if_false]
    rw [if_pos (List.isPrefixOf_iff_prefix.2 ⟨r, rfl⟩), List.drop_left, if_neg hne]
    rcases hcase with rfl | rfl
    · rw [if_pos (by simp [List.isPrefixOf_iff_prefix, List.prefix_append]),
        List.drop_left]
    · rw [if_pos (by simp [List.isPrefixOf_iff_prefix, List.prefix_append])]
      have hdropRep : (List.replicate d.pfx.length ' ' ++ t).drop d.pfx.length = t := by
        have hh := List.drop_left (List.replicate d.pfx.length ' ') t
        rwa [List.length_replicate] at hh
      rw [hdropRep]
  · intro hit
    unfold Directive.add_line
    rcases hit with h | h <;>
      rw [show d.directive_type.supports_multi_line = false from by
        rw [h]; rfl] <;> rfl

/-- Witness for C7: the Run directive with whitespace `"  "` and prefix
`"//"` accepts the continuation line `"  // x "` and appends `"x"`. -/
theorem c7_add_line_spec_witness :
    Directive.add_line
      { whitespaces := str "  ", pfx := str "//",
        directive_type := .Run, args := [str "a"] } (str "  // x ")
      = some { whitespaces := str "  ", pfx := str "//",
               directive_type := .Run, args := [str "a", str " x"] } :=
  (c7_add_line_spec
    { whitespaces := str "  ", pfx := str "//",
      directive_type := .Run, args := [str "a"] } (str "  // x ")).2.2.1
    (str "// x ") (str " x ") (by decide) (by decide) (by decide)
    (Or.inl (by decide))

/-- Claim C8 (confirmed): when a line is detected as a new directive of a
multi-line-capable kind with an empty prefix, the preprocessor rejects it
with a Directive error carrying the input file and the current line
number. -/
theorem c8_empty_prefix_multiline_error (file : Str) (n : Nat) (l : Str)
    (d : Directive) (hd : Directive.detect_from l = some d)
    (hm : d.directive_type.supports_multi_line = true) (hp : d.pfx = []) :
    iterateDirective file n none (some l)
      = .error { kind := .Directive, file := file, line := n } := by
  simp only [iterateDirective, hd]
  rw [if_pos (by simp [hm, hp])]

/-- Witness for C8: the line `TXTPP# x` detects as an Empty directive
with empty prefix and is rejected at line 3 of file `f`. -/
theorem c8_empty_prefix_multiline_error_witness :
    iterateDirective (str "f") 3 none (some (str "TXTPP# x"))
      = .error { kind := .Directive, file := str "f", line := 3 } :=
  c8_empty_prefix_multiline_error (str "f") 3 (str "TXTPP# x")
    { whitespaces := [], pfx := [], directive_type := .Empty, args := [str "x"] }
    (by decide) (by decide) (by decide)

theorem renderFrom_append (le : Str) (l1 l2 : List (Str × Bool × Bool)) :
    ∀ flag, renderFrom le flag (l1 ++ l2)
      = renderFrom le flag l1 ++ renderFrom le (flagAfter flag l1) l2 := by
  induction l1 with
  | nil => intro flag; simp [renderFrom, flagAfter]
  | cons e t ih => intro flag; simp [renderFrom, flagAfter, ih]

theorem flagAfter_append (l1 l2 : List (Str × Bool × Bool)) :
    ∀ flag, flagAfter flag (l1 ++ l2) = flagAfter (flagAfter flag l1) l2 := by
  induction l1 with
  | nil => intro flag; rfl
  | cons e t ih => intro flag; simp [flagAfter, ih]

theorem renderDelta_trans (le : Str) {a b c : PpState × Bool}
    (h1 : RenderDelta le a b) (h2 : RenderDelta le b c) : RenderDelta le a c := by
  obtain ⟨d1, he1, ho1, hf1⟩ := h1
  obtain ⟨d2, he2, ho2, hf2⟩ := h2
  refine ⟨d1 ++ d2, ?_, ?_, ?_⟩
  · rw [he2, he1, List.append_assoc]
  · rw [ho2, ho1, renderFrom_append, hf1, List.append_assoc]
  · rw [hf2, hf1, flagAfter_append]

theorem renderDelta_of_eq (le : Str) (a b : PpState × Bool)
    (he : b.1.emits = a.1.emits) (ho : b.1.out = a.1.out) (hf : b.2 = a.2) :
    RenderDelta le a b :=
  ⟨[], by rw [he, List.append_nil], by rw [ho, renderFrom, List.append_nil],
    by rw [hf, flagAfter]⟩

theorem writeOut_render (le : Str) (st : PpState) (tw : Option Str)
    (tail dir flag : Bool) :
    RenderDelta le (st, flag) (writeOut le st tw tail dir flag) := by
  unfold writeOut
  by_cases hx : st.ppMode.is_execute
  · rw [if_pos hx]
    cases tw with
    | none => exact renderDelta_of_eq le (st, flag) (st, flag) rfl rfl rfl
    | some x =>
      refine ⟨[(x, tail, dir)], by simp, ?_, by simp [flagAfter]⟩
      simp [renderFrom]
  · rw [if_neg hx]
    exact renderDelta_of_eq le (st, flag) (st, flag) rfl rfl rfl

theorem executeInCollectDepsMode_frame (env : PpEnv) (file : Str) (st : PpState)
    (d : Directive) (r : PpState × Option Directive)
    (h : executeInCollectDepsMode env file st d = .ok r) :
    r.1.out = st.out ∧ r.1.emits = st.emits := by
  unfold executeInCollectDepsMode at h
  repeat' split at h
  all_goals first
    | (injection h with h; subst h; exact ⟨rfl, rfl⟩)
    | exact Except.noConfusion h

theorem executeDirectiveTemp_frame (env : PpEnv) (file : Str) (st : PpState)
    (args : List Str) (st2 : PpState)
    (h : executeDirectiveTemp env file st args = .ok st2) :
    st2.out = st.out ∧ st2.emits = st.emits := by
  simp only [executeDirectiveTemp] at h
  repeat' split at h
  all_goals first
    | (injection h with h; subst h; exact ⟨rfl, rfl⟩)
    | exact Except.noConfusion h

theorem executeDirective_frame (env : PpEnv) (file : Str) (st : PpState)
    (d : Directive) (r : PpState × Option Str)
    (h : executeDirective env file st d = .ok r) :
    r.1.out = st.out ∧ r.1.emits = st.emits := by
  rcases hc : executeInCollectDepsMode env file st d with e | ⟨st1, od⟩
  · simp only [executeDirective, hc] at h
    exact Except.noConfusion h
  · obtain ⟨ho1, he1⟩ := executeInCollectDepsMode_frame env file st d (st1, od) hc
    rcases od with _ | d1
    · simp only [executeDirective, hc] at h
      injection h with h; subst h; exact ⟨ho1, he1⟩
    · cases hdt : d1.directive_type
      case Empty =>
        simp only [executeDirective, hc, hdt] at h
        injection h with h; subst h; exact ⟨ho1, he1⟩
      case Include =>
        rcases hi : env.readInclude (d1.args.headD []) with u | o
        · simp only [executeDirective, hc, hdt, hi] at h
          exact Except.noConfusion h
        · simp only [executeDirective, hc, hdt, hi] at h
          injection h with h; subst h; exact ⟨ho1, he1⟩
      case Run =>
        rcases hs : env.shellRun (List.intercalate (str " ") d1.args) with u | o
        · simp only [executeDirective, hc, hdt, hs] at h
          exact Except.noConfusion h
        · simp only [executeDirective, hc, hdt, hs] at h
          injection h with h; subst h; exact ⟨ho1, he1⟩
      case Tag =>
        rcases ht : (TagState.create st1.tag (d1.args.headD [])).2 with u | o
        · simp only [executeDirective, hc, hdt, ht] at h
          exact Except.noConfusion h
        · simp only [executeDirective, hc, hdt, ht] at h
          injection h with h; subst h; exact ⟨ho1, he1⟩
      case Temp =>
        rcases htp : executeDirectiveTemp env file st1 d1.args with e | st2
        · simp only [executeDirective, hc, hdt, htp] at h
          exact Except.noConfusion h
        · simp only [executeDirective, hc, hdt, htp] at h
          obtain ⟨ho2, he2⟩ := executeDirectiveTemp_frame env file st1 d1.args st2 htp
          injection h with h; subst h
          exact ⟨ho2.trans ho1, he2.trans he1⟩
      case Write =>
        simp only [executeDirective, hc, hdt] at h
        injection h with h; subst h; exact ⟨ho1, he1⟩

theorem executeChunk_frame (env : PpEnv) (file : Str) (st : PpState)
    (d : Directive) (r : PpState × Option Str)
    (h : executeChunk env file st d = .ok r) :
    r.1.out = st.out ∧ r.1.emits = st.emits := by
  rcases he : executeDirective env file st d with e | ⟨st1, raw⟩
  · simp only [executeChunk, he] at h
    exact Except.noConfusion h
  · obtain ⟨ho1, he1⟩ := executeDirective_frame env file st d (st1, raw) he
    rcases raw with _ | raw
    · simp only [executeChunk, he] at h
      injection h with h; subst h; exact ⟨ho1, he1⟩
    · simp only [executeChunk, he] at h
      split at h
      · injection h with h; subst h; exact ⟨ho1, he1⟩
      · injection h with h; subst h; exact ⟨ho1, he1⟩

theorem ppStep_render (env : PpEnv) (file : Str) (st : PpState)
    (cur : Option Directive) (line : Option Str) (flag : Bool)
    (q : Option Directive × Option Str × PpState × Bool)
    (h : ppStep env file st cur line flag = .ok (some q)) :
    RenderDelta env.lineEnding (st, flag) (q.2.2.1, q.2.2.2) := by
  rcases hid : iterateDirective file st.curLine cur line with e | ⟨cur1, r⟩
  · simp only [ppStep, hid] at h
    exact Except.noConfusion h
  · cases r with
    | Break =>
      simp only [ppStep, hid] at h
      exact Option.noConfusion (Except.ok.inj h)
    | LineTaken =>
      simp only [ppStep, hid] at h
      injection h with h
      injection h with h
      subst h
      exact renderDelta_of_eq env.lineEnding (st, flag) _ rfl rfl rfl
    | NoneLine l =>
      simp only [ppStep, hid] at h
      injection h with h
      injection h with h
      subst h
      exact renderDelta_trans _
        (renderDelta_of_eq env.lineEnding (st, flag) _ rfl rfl rfl)
        (writeOut_render env.lineEnding _ _ false false flag)
    | Execute d carry =>
      rcases hec : executeChunk env file st d with e | ⟨st1, tw⟩
      · simp only [ppStep, hid, hec] at h
        exact Except.noConfusion h
      · obtain ⟨ho1, he1⟩ := executeChunk_frame env file st d (st1, tw) hec
        simp only [ppStep, hid, hec] at h
        injection h with h
        injection h with h
        subst h
        exact renderDelta_trans _
          (renderDelta_of_eq env.lineEnding (st, flag) (st1, flag) he1 ho1 rfl)
          (writeOut_render env.lineEnding st1 tw carry.isSome true flag)

theorem ppLoop_render (env : PpEnv) (file : Str) (lines : List Str) :
    ∀ (cur : Option Directive) (st : PpState) (flag : Bool)
      (st' : PpState) (flag' : Bool),
      ppLoop env file lines cur st flag = .ok (st', flag') →
      RenderDelta env.lineEnding (st, flag) (st', flag') := by
  induction lines with
  | nil =>
    intro cur st flag st' flag' h
    rcases hs : ppStep env file st cur none flag with e | o
    · simp only [ppLoop, hs] at h
      exact Except.noConfusion h
    · rcases o with _ | ⟨c1, s1, st1, fl1⟩
      · simp only [ppLoop, hs] at h
        injection h with h; injection h with h1 h2; subst h1; subst h2
        exact renderDelta_of_eq env.lineEnding (st, flag) (st, flag) rfl rfl rfl
      · simp only [ppLoop, hs] at h
        injection h with h; injection h with h1 h2; subst h1; subst h2
        exact ppStep_render env file st cur none flag (c1, s1, st1, fl1) hs
  | cons l rest ih =>
    intro cur st flag st' flag' h
    rcases hs1 : ppStep env file { st with curLine := st.curLine + 1 } cur (some l) flag
      with e | o1
    · simp only [ppLoop, hs1] at h
      exact Except.noConfusion h
    · have hbump : RenderDelta env.lineEnding (st, flag)
        ({ st with curLine := st.curLine + 1 }, flag) :=
        renderDelta_of_eq env.lineEnding (st, flag)
          ({ st with curLine := st.curLine + 1 }, flag) rfl rfl rfl
      rcases o1 with _ | ⟨cur1, stash, st1, flag1⟩
      · simp only [ppLoop, hs1] at h
        injection h with h; injection h with h1 h2; subst h1; subst h2
        exact hbump
      · have hd1 : RenderDelta env.lineEnding (st, flag) (st1, flag1) :=
          renderDelta_trans _ hbump
            (ppStep_render env file _ cur (some l) flag (cur1, stash, st1, flag1) hs1)
        rcases stash with _ | sl
        · simp only [ppLoop, hs1] at h
          exact renderDelta_trans _ hd1 (ih cur1 st1 flag1 st' flag' h)
        · rcases hs2 : ppStep env file st1 cur1 (some sl) flag1 with e | o2
          · simp only [ppLoop, hs1, hs2] at h
            exact Except.noConfusion h
          · rcases o2 with _ | ⟨cur2, s2, st2, flag2⟩
            · simp only [ppLoop, hs1, hs2] at h
              injection h with h; injection h with h1 h2; subst h1; subst h2
              exact hd1
            · simp only [ppLoop, hs1, hs2] at h
              have hd2 : RenderDelta env.lineEnding (st, flag) (st2, flag2) :=
                renderDelta_trans _ hd1
                  (ppStep_render env file st1 cur1 (some sl) flag1
                    (cur2, s2, st2, flag2) hs2)
              exact renderDelta_trans _ hd2 (ih cur2 st2 flag2 st' flag' h)

/-- Claim C2 (code bug): `execute_directive` computes the raw output of
a Write directive as `d.args.join("\n")`
(src/src/core/execute/pp/mod.rs:267) — every argument is kept,
including `args[0]` captured from the detection line. The claim and the
spec say `args[1..]` are joined and the leading argument is discarded:
on the argument list `["a", "b"]` the code produces `a\nb` while the
documented output is `b`. -/
theorem c2_write_join_failing_input :
    (∀ (w p : Str) (args : List Str),
      executeDirective envTriv (str "f") execState
        { whitespaces := w, pfx := p, directive_type := .Write, args := args }
        = .ok (execState, some (List.intercalate (str "\n") args))) ∧
    List.intercalate (str "\n") [str "a", str "b"] = str "a\nb" ∧
    writeRawSpec [str "a", str "b"] = str "b" ∧
    str "a\nb" ≠ str "b" :=
  ⟨fun _ _ _ => rfl, rfl, rfl, by decide⟩

/-- Claim C3 (amended): for every completed non-CollectDeps run, the
output buffer is exactly the emission trace rendered under the newline
discipline the code implements — the flag starts false, each emission
is preceded by one line ending iff the flag is set, after every
emission (directive or passthrough alike) the flag is set iff the
emission left no carry line, and one final line ending is appended iff
the flag survived and `trailing_newline` is configured. -/
theorem c3_newline_flag_amended (env : PpEnv) (file : Str) (lines : List Str)
    (fp tn : Bool) (st : PpState)
    (h : ppRun env file lines fp tn = .ok (st, .Ok file)) :
    st.out = renderAmended env.lineEnding tn st.emits := by
  simp only [ppRun] at h
  rcases hl : ppLoop env file lines none
      { curLine := 0, tag := TagState.new,
        ppMode := if fp then .FirstPassExecute else .Execute,
        out := [], temps := [], emits := [] } false with e | ⟨st1, flag⟩
  · simp only [hl] at h
    exact Except.noConfusion h
  · simp only [hl] at h
    obtain ⟨Δ, he, ho, hf⟩ := ppLoop_render env file lines none _ false st1 flag hl
    simp only [List.nil_append] at he ho
    dsimp only at hf
    rcases hm : st1.ppMode with _ | _ | deps
    case CollectDeps =>
      simp only [hm] at h
      injection h with h
      injection h with h1 h2
      exact PpResult.noConfusion h2
    all_goals (
      simp only [hm] at h
      split at h
      · exact Except.noConfusion h
      · split at h <;> (injection h with h; injection h with h1 h2; subst h1) <;>
          rename_i hcond
        · rw [hf] at hcond
          simp only [renderAmended, he, ho]
          rw [if_pos hcond]
        · rw [hf] at hcond
          simp only [renderAmended, he, ho]
          rw [if_neg hcond, List.append_nil])

/-- Witness for the amended C3: the one-line input `a` with
`trailing_newline` on produces `a`, the injected line ending, and a
final line ending, matching the rendered trace. -/
theorem c3_newline_flag_amended_witness :
    ppRun envTriv (str "f") [str "a"] false true = .ok (c3WitState, .Ok (str "f")) ∧
    c3WitState.out = renderAmended envTriv.lineEnding true c3WitState.emits :=
  ⟨by rfl,
    c3_newline_flag_amended envTriv (str "f") [str "a"] false true c3WitState
      (by rfl)⟩

/-- Claim C3 (counterexample to the stated flag discipline): the claim
says an ordinary passthrough line leaves the flag false, so the
two-line directive-free input `a`, `b` would render with no line ending
inserted between the emitted chunks and none at the end. The code sets
the flag after every emission that leaves no carry line — passthrough
lines included (`has_tail` is `false` at
src/src/core/execute/pp/mod.rs:81, and line 119 sets the flag to its
negation) — so the run inserts a line ending between the two chunks and
appends a final one. -/
theorem c3_newline_flag_counterexample :
    (ppRun envTriv (str "f") [str "a", str "b"] false true).map
        (fun r => (r.1.out,
          renderAmended envTriv.lineEnding true r.1.emits,
          renderClaimed envTriv.lineEnding true r.1.emits))
      = .ok (str "a\n\nb\n\n", str "a\n\nb\n\n", str "a\nb\n") ∧
    (str "a\n\nb\n\n" : Str) ≠ str "a\nb\n" :=
  ⟨by rfl, by decide⟩

end Txtpp

